import Mathlib

/-!
Shallow embedding of `socialchoice.py` (class `Election`): pairwise-vote
validation, matchup tallying, matchup/victory graph construction, and the
five ranking methods (ranked pairs, Copeland, minimax, win ratio,
win-tie ratio).

Modelling conventions:
* Python values appearing in votes are modelled as `String`
  (candidates and the outcome labels `"win"`, `"loss"`, `"tie"`).
* A raw vote (any indexable of some length) is a `List String`;
  a normalized vote is the triple of its first three components.
* Python `dict`s are association lists with insertion-order semantics
  (`dget`/`dset`); a missing key raises `KeyError`.
* Python exceptions are the error side of `Except PyError`.
* Python `float` ratios are modelled as exact rationals `ℚ`.
* `networkx.DiGraph` is a node list plus an edge association list.
* Cycle detection (`networkx.find_cycle`) and topological sorting
  (`networkx.topological_sort`) are both modelled through a Kahn-style
  elimination procedure `kahnGo`: the graph has a directed cycle iff the
  procedure gets stuck, and its output is the topological order.
* Python stable sorting (`sorted` / `list.sort`) is modelled by a stable
  insertion sort `pySort`.
-/

/-- Python exceptions that the translated code can raise. -/
inductive PyError where
  | assertionError
  | keyError
  | typeError
  | valueError
deriving DecidableEq, Repr

/-- Candidates (and outcome labels) are opaque hashable values; the tests use strings. -/
abbrev Cand := String

/-- A raw vote: "any indexable object", here a list of values. -/
abbrev RawVote := List String

/-- A normalized vote triple `(candidateA, candidateB, outcome)`. -/
abbrev Vote := Cand × Cand × Cand

/-- Key of an ordered candidate pair, indexing the flattened matchup dictionary. -/
abbrev Key := Cand × Cand

/-- Lookup in an association list (Python `d[k]`, successful case). -/
def dget {β : Type} : List (Key × β) → Key → Option β
  | [], _ => none
  | (k₁, v) :: rest, k => if k₁ = k then some v else dget rest k

/-- Update of an association list (Python `d[k] = v`): replaces in place,
appending at the end when the key is new, exactly like dict insertion order. -/
def dset {β : Type} : List (Key × β) → Key → β → List (Key × β)
  | [], k, v => [(k, v)]
  | (k₁, v₁) :: rest, k, v =>
    if k₁ = k then (k, v) :: rest else (k₁, v₁) :: dset rest k v

theorem dget_dset {β : Type} (m : List (Key × β)) (k : Key) (v : β) (k₂ : Key) :
    dget (dset m k v) k₂ = if k = k₂ then some v else dget m k₂ := by
  induction m with
  | nil => by_cases h : k = k₂ <;> simp [dset, dget, h]
  | cons hd tl ih =>
    obtain ⟨k₁, v₁⟩ := hd
    by_cases h1 : k₁ = k
    · subst h1
      by_cases h2 : k₁ = k₂ <;> simp [dset, dget, h2]
    · by_cases h2 : k₁ = k₂
      · subst h2
        have : ¬ k = k₁ := fun h => h1 h.symm
        simp [dset, dget, h1, this]
      · simp [dset, dget, h1, h2, ih]

theorem keys_dset {β : Type} (m : List (Key × β)) (k : Key) (v : β) :
    (dset m k v).map Prod.fst = m.map Prod.fst ∨
      (dset m k v).map Prod.fst = m.map Prod.fst ++ [k] := by
  induction m with
  | nil => simp [dset]
  | cons hd tl ih =>
    obtain ⟨k₁, v₁⟩ := hd
    by_cases h : k₁ = k
    · subst h; simp [dset]
    · rcases ih with h2 | h2 <;> simp [dset, h, h2]

theorem keys_nodup_dset {β : Type} (m : List (Key × β)) (k : Key) (v : β)
    (h : (m.map Prod.fst).Nodup) : ((dset m k v).map Prod.fst).Nodup := by
  induction m with
  | nil => simp [dset]
  | cons hd tl ih =>
    obtain ⟨k₁, v₁⟩ := hd
    simp only [List.map_cons, List.nodup_cons] at h
    by_cases hk : k₁ = k
    · subst hk
      simp [dset, List.nodup_cons, h.1, h.2]
    · simp only [dset, if_neg hk, List.map_cons]
      refine List.nodup_cons.mpr ⟨?_, ih h.2⟩
      rcases keys_dset tl k v with h2 | h2
      · rw [h2]; exact h.1
      · rw [h2]
        simp only [List.mem_append, List.mem_singleton]
        rintro (hmem | rfl)
        · exact h.1 hmem
        · exact hk rfl

theorem dget_eq_none_of_not_mem_keys {β : Type} (m : List (Key × β)) (k : Key)
    (h : k ∉ m.map Prod.fst) : dget m k = none := by
  induction m with
  | nil => rfl
  | cons hd tl ih =>
    obtain ⟨k₁, v₁⟩ := hd
    simp only [List.map_cons, List.mem_cons] at h
    push_neg at h
    have : k₁ ≠ k := fun e => h.1 e.symm
    simp [dget, this, ih h.2]

theorem dget_isSome_of_mem {β : Type} (m : List (Key × β)) (k : Key) (v : β)
    (h : (k, v) ∈ m) : (dget m k).isSome := by
  induction m with
  | nil => simp at h
  | cons hd tl ih =>
    obtain ⟨k₁, v₁⟩ := hd
    rcases List.mem_cons.mp h with h1 | h1
    · rw [show k₁ = k from (Prod.mk.injEq .. ▸ h1.symm : _ ∧ _).1]
      simp [dget]
    · by_cases hk : k₁ = k
      · simp [dget, hk]
      · simp [dget, hk]; exact ih h1

theorem mem_of_dget_eq_some {β : Type} (m : List (Key × β)) (k : Key) (v : β)
    (h : dget m k = some v) : (k, v) ∈ m := by
  induction m with
  | nil => simp [dget] at h
  | cons hd tl ih =>
    obtain ⟨k₁, v₁⟩ := hd
    by_cases hk : k₁ = k
    · subst hk
      simp [dget] at h
      simp [h]
    · simp [dget, hk] at h
      exact List.mem_cons_of_mem _ (ih h)

/-- `__are_valid_votes`, per-vote part: `len(vote) == 3 and vote[2] in ("win","loss","tie")`.
The conjunction short-circuits exactly like the Python `and`. -/
def isValidVote (v : RawVote) : Bool :=
  v.length == 3 &&
    (v.getD 2 "" == "win" || v.getD 2 "" == "loss" || v.getD 2 "" == "tie")

/-- `Election.__are_valid_votes`. -/
def areValidVotes (votes : List RawVote) : Bool := votes.all isValidVote

/-- Tuple unpacking `candidate1, candidate2, result = vote` of a validated
length-3 vote. -/
def normalizeVote (v : RawVote) : Vote := (v.getD 0 "", v.getD 1 "", v.getD 2 "")

/-- `Election.__get_all_candidates_from_votes`:
`{vote[0] for vote in votes} | {vote[1] for vote in votes}`, the Python set
determinized as a first-occurrence-ordered duplicate-free list. -/
def getAllCandidatesFromVotes (votes : List Vote) : List Cand :=
  (votes.map Prod.fst ++ votes.map (fun v => v.2.1)).dedup

/-- The state of a constructed `Election`: the validated vote list and the
candidate set derived from it. -/
structure Election where
  _votes : List Vote
  _candidates : List Cand
deriving DecidableEq, Repr

/-- `Election.__init__`: `assert __are_valid_votes(votes)` (an invalid input
raises `AssertionError`), then store the votes and the derived candidate set. -/
def mkElection (votes : List RawVote) : Except PyError Election :=
  if areValidVotes votes then
    let vs := votes.map normalizeVote
    .ok { _votes := vs, _candidates := getAllCandidatesFromVotes vs }
  else .error .assertionError

theorem mkElection_ok_votes (votes : List RawVote) (e : Election)
    (h : mkElection votes = .ok e) :
    e._votes = votes.map normalizeVote ∧
      e._candidates = getAllCandidatesFromVotes e._votes ∧
      areValidVotes votes = true := by
  by_cases hv : areValidVotes votes
  · simp [mkElection, hv] at h
    cases h
    exact ⟨rfl, rfl, hv⟩
  · simp [mkElection, hv] at h

theorem mkElection_ok_labels (votes : List RawVote) (e : Election)
    (h : mkElection votes = .ok e) :
    ∀ v ∈ e._votes, v.2.2 = "win" ∨ v.2.2 = "loss" ∨ v.2.2 = "tie" := by
  obtain ⟨hvotes, _, hvalid⟩ := mkElection_ok_votes votes e h
  intro v hv
  rw [hvotes] at hv
  obtain ⟨r, hr, rfl⟩ := List.mem_map.mp hv
  have := (List.all_eq_true.mp hvalid) r hr
  simp only [isValidVote, Bool.and_eq_true, Bool.or_eq_true, beq_iff_eq] at this
  have h2 := this.2
  simp at h2
  simp [normalizeVote]
  tauto

theorem mem_getAllCandidatesFromVotes (vs : List Vote) (c : Cand) :
    c ∈ getAllCandidatesFromVotes vs ↔ ∃ v ∈ vs, v.1 = c ∨ v.2.1 = c := by
  simp only [getAllCandidatesFromVotes, List.mem_dedup, List.mem_append, List.mem_map]
  constructor
  · rintro (⟨v, hv, rfl⟩ | ⟨v, hv, rfl⟩)
    · exact ⟨v, hv, Or.inl rfl⟩
    · exact ⟨v, hv, Or.inr rfl⟩
  · rintro ⟨v, hv, rfl | rfl⟩
    · exact Or.inl ⟨v, hv, rfl⟩
    · exact Or.inr ⟨v, hv, rfl⟩

theorem nodup_getAllCandidatesFromVotes (vs : List Vote) :
    (getAllCandidatesFromVotes vs).Nodup := List.nodup_dedup _

theorem mkElection_ok_cands (votes : List RawVote) (e : Election)
    (h : mkElection votes = .ok e) :
    (∀ v ∈ e._votes, v.1 ∈ e._candidates ∧ v.2.1 ∈ e._candidates) ∧
      e._candidates.Nodup ∧
      (∀ c ∈ e._candidates, ∃ v ∈ e._votes, v.1 = c ∨ v.2.1 = c) := by
  obtain ⟨_, hcands, _⟩ := mkElection_ok_votes votes e h
  rw [hcands]
  refine ⟨?_, nodup_getAllCandidatesFromVotes _, ?_⟩
  · intro v hv
    constructor
    · exact (mem_getAllCandidatesFromVotes _ _).mpr ⟨v, hv, Or.inl rfl⟩
    · exact (mem_getAllCandidatesFromVotes _ _).mpr ⟨v, hv, Or.inr rfl⟩
  · intro c hc
    exact (mem_getAllCandidatesFromVotes _ _).mp hc

/-- One cell of the matchup dictionary: the record of wins, losses and ties. -/
structure Counts where
  wins : Nat
  losses : Nat
  ties : Nat
deriving DecidableEq, Repr

/-- The fresh cell entered by the nested loop of `get_matchups`. -/
def zeroCounts : Counts := ⟨0, 0, 0⟩

/-- The matchup dictionary `matchups[c1][c2]`, flattened over ordered pairs.
The outer dictionary always holds every candidate, so the only possible
`KeyError` is an inner one, which the flat form models exactly. -/
abbrev Tally := List (Key × Counts)

theorem mem_dset {β : Type} (m : List (Key × β)) (k : Key) (v : β) :
    ∀ p ∈ dset m k v, p = (k, v) ∨ p ∈ m := by
  induction m with
  | nil => intro p hp; simp [dset] at hp; simp [hp]
  | cons hd tl ih =>
    obtain ⟨k₁, v₁⟩ := hd
    intro p hp
    by_cases hk : k₁ = k
    · simp [dset, hk] at hp
      rcases hp with rfl | hp
      · exact Or.inl rfl
      · exact Or.inr (List.mem_cons_of_mem _ hp)
    · simp only [dset, if_neg hk, List.mem_cons] at hp
      rcases hp with rfl | hp
      · exact Or.inr (List.mem_cons_self _ _)
      · rcases ih p hp with h | h
        · exact Or.inl h
        · exact Or.inr (List.mem_cons_of_mem _ h)

/-- Inner initialization loop of `get_matchups`: for a fixed `candidate1`,
walk `candidate2` over the candidates, skip the diagonal, and enter zero
cells for both ordered pairs. -/
def initInner (c2s : List Cand) (m : Tally) (c1 : Cand) : Tally :=
  c2s.foldl (fun m c2 =>
    if c1 = c2 then m
    else dset (dset m (c1, c2) zeroCounts) (c2, c1) zeroCounts) m

/-- Both initialization loops of `get_matchups`: every ordered pair of
distinct candidates is entered with a zero cell, the diagonal never is. -/
def initTally (cands : List Cand) : Tally :=
  cands.foldl (fun m c1 => initInner cands m c1) []

theorem initInner_get (c2s : List Cand) : ∀ (m : Tally) (c1 A B : Cand),
    dget (initInner c2s m c1) (A, B) =
      if (c1 = A ∧ B ∈ c2s ∧ A ≠ B) ∨ (c1 = B ∧ A ∈ c2s ∧ A ≠ B) then some zeroCounts
      else dget m (A, B) := by
  induction c2s with
  | nil => intro m c1 A B; simp [initInner]
  | cons c2 rest ih =>
    intro m c1 A B
    show dget (initInner rest
      (if c1 = c2 then m
       else dset (dset m (c1, c2) zeroCounts) (c2, c1) zeroCounts) c1) (A, B) = _
    rw [ih]
    simp only [List.mem_cons]
    by_cases hc : c1 = c2
    · rw [if_pos hc]
      subst hc
      have hiff : ((c1 = A ∧ (B = c1 ∨ B ∈ rest) ∧ A ≠ B) ∨
          (c1 = B ∧ (A = c1 ∨ A ∈ rest) ∧ A ≠ B)) ↔
          ((c1 = A ∧ B ∈ rest ∧ A ≠ B) ∨ (c1 = B ∧ A ∈ rest ∧ A ≠ B)) := by
        constructor
        · rintro (⟨rfl, hB, hAB⟩ | ⟨rfl, hA, hAB⟩)
          · rcases hB with rfl | hB
            · exact absurd rfl hAB
            · exact Or.inl ⟨rfl, hB, hAB⟩
          · rcases hA with rfl | hA
            · exact absurd rfl hAB
            · exact Or.inr ⟨rfl, hA, hAB⟩
        · rintro (⟨rfl, hB, hAB⟩ | ⟨rfl, hA, hAB⟩)
          · exact Or.inl ⟨rfl, Or.inr hB, hAB⟩
          · exact Or.inr ⟨rfl, Or.inr hA, hAB⟩
      by_cases h : (c1 = A ∧ B ∈ rest ∧ A ≠ B) ∨ (c1 = B ∧ A ∈ rest ∧ A ≠ B)
      · rw [if_pos h, if_pos (hiff.mpr h)]
      · rw [if_neg h, if_neg (fun hf => h (hiff.mp hf))]
    · rw [if_neg hc, dget_dset, dget_dset]
      simp only [Prod.mk.injEq]
      by_cases h1 : (c1 = A ∧ B ∈ rest ∧ A ≠ B) ∨ (c1 = B ∧ A ∈ rest ∧ A ≠ B)
      · rw [if_pos h1]
        have : (c1 = A ∧ (B = c2 ∨ B ∈ rest) ∧ A ≠ B) ∨
            (c1 = B ∧ (A = c2 ∨ A ∈ rest) ∧ A ≠ B) := by
          rcases h1 with ⟨h, hB, hAB⟩ | ⟨h, hA, hAB⟩
          · exact Or.inl ⟨h, Or.inr hB, hAB⟩
          · exact Or.inr ⟨h, Or.inr hA, hAB⟩
        rw [if_pos this]
      · rw [if_neg h1]
        by_cases t1 : c2 = A ∧ c1 = B
        · rw [if_pos t1]
          have hAB : A ≠ B := fun h => hc (by rw [t1.2, ← h]; exact t1.1.symm)
          rw [if_pos (Or.inr ⟨t1.2, Or.inl t1.1.symm, hAB⟩)]
        · rw [if_neg t1]
          by_cases t2 : c1 = A ∧ c2 = B
          · rw [if_pos t2]
            have hAB : A ≠ B := fun h => hc (by rw [t2.1, h]; exact t2.2.symm)
            rw [if_pos (Or.inl ⟨t2.1, Or.inl t2.2.symm, hAB⟩)]
          · rw [if_neg t2]
            have : ¬ ((c1 = A ∧ (B = c2 ∨ B ∈ rest) ∧ A ≠ B) ∨
                (c1 = B ∧ (A = c2 ∨ A ∈ rest) ∧ A ≠ B)) := by
              rintro (⟨rfl, hB, hAB⟩ | ⟨rfl, hA, hAB⟩)
              · rcases hB with rfl | hB
                · exact t2 ⟨rfl, rfl⟩
                · exact h1 (Or.inl ⟨rfl, hB, hAB⟩)
              · rcases hA with rfl | hA
                · exact t1 ⟨rfl, rfl⟩
                · exact h1 (Or.inr ⟨rfl, hA, hAB⟩)
            rw [if_neg this]

theorem initOuter_get (c1s : List Cand) : ∀ (cands : List Cand) (m : Tally) (A B : Cand),
    dget (c1s.foldl (fun m c1 => initInner cands m c1) m) (A, B) =
      if (A ∈ c1s ∧ B ∈ cands ∧ A ≠ B) ∨ (B ∈ c1s ∧ A ∈ cands ∧ A ≠ B) then some zeroCounts
      else dget m (A, B) := by
  induction c1s with
  | nil => intro cands m A B; simp
  | cons c1 rest ih =>
    intro cands m A B
    show dget (rest.foldl (fun m c1 => initInner cands m c1) (initInner cands m c1)) (A, B) = _
    rw [ih, initInner_get]
    simp only [List.mem_cons]
    by_cases h1 : (A ∈ rest ∧ B ∈ cands ∧ A ≠ B) ∨ (B ∈ rest ∧ A ∈ cands ∧ A ≠ B)
    · rw [if_pos h1]
      have : ((A = c1 ∨ A ∈ rest) ∧ B ∈ cands ∧ A ≠ B) ∨
          ((B = c1 ∨ B ∈ rest) ∧ A ∈ cands ∧ A ≠ B) := by
        rcases h1 with ⟨hA, h⟩ | ⟨hB, h⟩
        · exact Or.inl ⟨Or.inr hA, h⟩
        · exact Or.inr ⟨Or.inr hB, h⟩
      rw [if_pos this]
    · rw [if_neg h1]
      by_cases h2 : (c1 = A ∧ B ∈ cands ∧ A ≠ B) ∨ (c1 = B ∧ A ∈ cands ∧ A ≠ B)
      · rw [if_pos h2]
        have : ((A = c1 ∨ A ∈ rest) ∧ B ∈ cands ∧ A ≠ B) ∨
            ((B = c1 ∨ B ∈ rest) ∧ A ∈ cands ∧ A ≠ B) := by
          rcases h2 with ⟨hA, h⟩ | ⟨hB, h⟩
          · exact Or.inl ⟨Or.inl hA.symm, h⟩
          · exact Or.inr ⟨Or.inl hB.symm, h⟩
        rw [if_pos this]
      · rw [if_neg h2]
        have : ¬ (((A = c1 ∨ A ∈ rest) ∧ B ∈ cands ∧ A ≠ B) ∨
            ((B = c1 ∨ B ∈ rest) ∧ A ∈ cands ∧ A ≠ B)) := by
          rintro (⟨hA, h⟩ | ⟨hB, h⟩)
          · rcases hA with rfl | hA
            · exact h2 (Or.inl ⟨rfl, h⟩)
            · exact h1 (Or.inl ⟨hA, h⟩)
          · rcases hB with rfl | hB
            · exact h2 (Or.inr ⟨rfl, h⟩)
            · exact h1 (Or.inr ⟨hB, h⟩)
        rw [if_neg this]

theorem initTally_get (cands : List Cand) (A B : Cand) :
    dget (initTally cands) (A, B) =
      if A ∈ cands ∧ B ∈ cands ∧ A ≠ B then some zeroCounts else none := by
  show dget (cands.foldl (fun m c1 => initInner cands m c1) []) (A, B) = _
  rw [initOuter_get]
  by_cases h : A ∈ cands ∧ B ∈ cands ∧ A ≠ B
  · rw [if_pos h, if_pos (Or.inl h)]
  · rw [if_neg h]
    have : ¬ ((A ∈ cands ∧ B ∈ cands ∧ A ≠ B) ∨ (B ∈ cands ∧ A ∈ cands ∧ A ≠ B)) := by
      rintro (h2 | ⟨hB, hA, hAB⟩)
      · exact h h2
      · exact h ⟨hA, hB, hAB⟩
    rw [if_neg this]
    rfl

/-- One statement `matchups[k.1][k.2][field] += 1`: raises `KeyError` when the
inner dictionary has no such key (only the diagonal is missing). -/
def incCounts (m : Tally) (k : Key) (f : Counts → Counts) : Except PyError Tally :=
  match dget m k with
  | none => .error .keyError
  | some c => .ok (dset m k (f c))

/-- The body of the vote loop of `get_matchups`: the three `if result == ...`
blocks, each incrementing the two mirror cells of the pair voted on. -/
def applyVote (m : Tally) (vote : Vote) : Except PyError Tally :=
  match vote with
  | (candidate1, candidate2, result) => do
    let m ← if result = "win" then do
        let m ← incCounts m (candidate1, candidate2) (fun c => { c with wins := c.wins + 1 })
        incCounts m (candidate2, candidate1) (fun c => { c with losses := c.losses + 1 })
      else pure m
    let m ← if result = "loss" then do
        let m ← incCounts m (candidate1, candidate2) (fun c => { c with losses := c.losses + 1 })
        incCounts m (candidate2, candidate1) (fun c => { c with wins := c.wins + 1 })
      else pure m
    if result = "tie" then do
        let m ← incCounts m (candidate1, candidate2) (fun c => { c with ties := c.ties + 1 })
        incCounts m (candidate2, candidate1) (fun c => { c with ties := c.ties + 1 })
      else pure m

/-- `Election.get_matchups`: zero cells for every ordered pair of distinct
candidates, then one pass over the votes. -/
def getMatchups (e : Election) : Except PyError Tally :=
  e._votes.foldlM (fun m vote => applyVote m vote) (initTally e._candidates)

/-- Semantic helper: the per-cell increment a single vote performs, used to
state what the vote loop computes. -/
def bump (v : Vote) (k : Key) (c : Counts) : Counts :=
  if v.2.2 = "win" then
    if (v.1, v.2.1) = k then { c with wins := c.wins + 1 }
    else if (v.2.1, v.1) = k then { c with losses := c.losses + 1 }
    else c
  else if v.2.2 = "loss" then
    if (v.1, v.2.1) = k then { c with losses := c.losses + 1 }
    else if (v.2.1, v.1) = k then { c with wins := c.wins + 1 }
    else c
  else if v.2.2 = "tie" then
    if (v.1, v.2.1) = k then { c with ties := c.ties + 1 }
    else if (v.2.1, v.1) = k then { c with ties := c.ties + 1 }
    else c
  else c

theorem exc_bind_ok {α β : Type} (a : α) (f : α → Except PyError β) :
    (Except.ok a >>= f) = f a := rfl

theorem exc_bind_err {α β : Type} (e : PyError) (f : α → Except PyError β) :
    ((Except.error e : Except PyError α) >>= f) = Except.error e := rfl

theorem exc_pure {α : Type} (a : α) : (pure a : Except PyError α) = Except.ok a := rfl

theorem incCounts_ok (m : Tally) (k : Key) (f : Counts → Counts) (c : Counts)
    (h : dget m k = some c) : incCounts m k f = .ok (dset m k (f c)) := by
  simp [incCounts, h]

theorem incCounts_err (m : Tally) (k : Key) (f : Counts → Counts)
    (h : dget m k = none) : incCounts m k f = .error .keyError := by
  simp [incCounts, h]

theorem pair_swap_ne (c1 c2 : Cand) (hne : c1 ≠ c2) : ((c1, c2) : Key) ≠ (c2, c1) := by
  intro h
  exact hne (congrArg Prod.fst h)

theorem twoInc_char (m : Tally) (c1 c2 : Cand) (f g : Counts → Counts) (m₂ : Tally)
    (hne : c1 ≠ c2)
    (h : (incCounts m (c1, c2) f >>= fun m => incCounts m (c2, c1) g) = .ok m₂) :
    ∀ k, dget m₂ k =
      (dget m k).map (fun c => if (c1, c2) = k then f c else if (c2, c1) = k then g c else c) := by
  intro k
  cases hA : dget m (c1, c2) with
  | none => rw [incCounts_err m _ f hA, exc_bind_err] at h; exact absurd h (by simp)
  | some c =>
    rw [incCounts_ok m _ f c hA, exc_bind_ok] at h
    have hBA : dget (dset m (c1, c2) (f c)) (c2, c1) = dget m (c2, c1) := by
      rw [dget_dset, if_neg (pair_swap_ne c1 c2 hne)]
    cases hB : dget m (c2, c1) with
    | none =>
      rw [incCounts_err _ _ g (hBA.trans hB)] at h
      exact absurd h (by simp)
    | some d =>
      rw [incCounts_ok _ _ g d (hBA.trans hB)] at h
      injection h with h
      subst h
      rw [dget_dset, dget_dset]
      by_cases h1 : ((c2, c1) : Key) = k
      · rw [if_pos h1, ← h1, hB]
        have e2 : ((c1, c2) : Key) ≠ (c2, c1) := pair_swap_ne c1 c2 hne
        simp [e2]
      · rw [if_neg h1]
        by_cases h2 : ((c1, c2) : Key) = k
        · rw [if_pos h2, ← h2, hA]
          simp
        · rw [if_neg h2]
          cases hK : dget m k with
          | none => simp
          | some x => simp [if_neg h2, if_neg h1]

theorem twoInc_ok (m : Tally) (c1 c2 : Cand) (f g : Counts → Counts)
    (hne : c1 ≠ c2)
    (h1 : (dget m (c1, c2)).isSome) (h2 : (dget m (c2, c1)).isSome) :
    ∃ m₂, (incCounts m (c1, c2) f >>= fun m => incCounts m (c2, c1) g) = .ok m₂ := by
  obtain ⟨c, hc⟩ := Option.isSome_iff_exists.mp h1
  obtain ⟨d, hd⟩ := Option.isSome_iff_exists.mp h2
  rw [incCounts_ok m _ f c hc, exc_bind_ok]
  have hBA : dget (dset m (c1, c2) (f c)) (c2, c1) = dget m (c2, c1) := by
    rw [dget_dset, if_neg (pair_swap_ne c1 c2 hne)]
  rw [incCounts_ok _ _ g d (hBA.trans hd)]
  exact ⟨_, rfl⟩

theorem twoInc_err_diag (m : Tally) (c1 : Cand) (f g : Counts → Counts)
    (h : dget m (c1, c1) = none) :
    (incCounts m (c1, c1) f >>= fun m => incCounts m (c1, c1) g) = .error .keyError := by
  rw [incCounts_err m _ f h, exc_bind_err]

theorem applyVote_eq_win (m : Tally) (c1 c2 : Cand) :
    applyVote m (c1, c2, "win") =
      (incCounts m (c1, c2) (fun c => { c with wins := c.wins + 1 }) >>= fun m =>
        incCounts m (c2, c1) (fun c => { c with losses := c.losses + 1 })) := by
  simp [applyVote]

theorem applyVote_eq_loss (m : Tally) (c1 c2 : Cand) :
    applyVote m (c1, c2, "loss") =
      (incCounts m (c1, c2) (fun c => { c with losses := c.losses + 1 }) >>= fun m =>
        incCounts m (c2, c1) (fun c => { c with wins := c.wins + 1 })) := by
  simp [applyVote]

theorem applyVote_eq_tie (m : Tally) (c1 c2 : Cand) :
    applyVote m (c1, c2, "tie") =
      (incCounts m (c1, c2) (fun c => { c with ties := c.ties + 1 }) >>= fun m =>
        incCounts m (c2, c1) (fun c => { c with ties := c.ties + 1 })) := by
  simp [applyVote]

theorem applyVote_eq_other (m : Tally) (c1 c2 : Cand) (res : Cand)
    (h1 : res ≠ "win") (h2 : res ≠ "loss") (h3 : res ≠ "tie") :
    applyVote m (c1, c2, res) = .ok m := by
  simp [applyVote, h1, h2, h3, exc_pure]
  rfl

theorem applyVote_char (m : Tally) (v : Vote) (m₂ : Tally)
    (hdiag : ∀ A, dget m (A, A) = none)
    (h : applyVote m v = .ok m₂) :
    ∀ k, dget m₂ k = (dget m k).map (bump v k) := by
  obtain ⟨c1, c2, res⟩ := v
  by_cases hw : res = "win"
  · subst hw
    rw [applyVote_eq_win] at h
    by_cases hne : c1 = c2
    · subst hne
      rw [twoInc_err_diag _ _ _ _ (hdiag c1)] at h
      exact absurd h (by simp)
    · intro k
      rw [twoInc_char m c1 c2 _ _ m₂ hne h k]
      cases dget m k <;> simp [bump]
  · by_cases hl : res = "loss"
    · subst hl
      rw [applyVote_eq_loss] at h
      by_cases hne : c1 = c2
      · subst hne
        rw [twoInc_err_diag _ _ _ _ (hdiag c1)] at h
        exact absurd h (by simp)
      · intro k
        rw [twoInc_char m c1 c2 _ _ m₂ hne h k]
        cases dget m k <;> simp [bump]
    · by_cases ht : res = "tie"
      · subst ht
        rw [applyVote_eq_tie] at h
        by_cases hne : c1 = c2
        · subst hne
          rw [twoInc_err_diag _ _ _ _ (hdiag c1)] at h
          exact absurd h (by simp)
        · intro k
          rw [twoInc_char m c1 c2 _ _ m₂ hne h k]
          cases dget m k <;> simp [bump]
      · rw [applyVote_eq_other m c1 c2 res hw hl ht] at h
        injection h with h
        subst h
        intro k
        cases dget m k <;> simp [bump, hw, hl, ht]

theorem applyVote_ok_nonself (m : Tally) (v : Vote) (hne : v.1 ≠ v.2.1)
    (h1 : (dget m (v.1, v.2.1)).isSome) (h2 : (dget m (v.2.1, v.1)).isSome) :
    ∃ m₂, applyVote m v = .ok m₂ := by
  obtain ⟨c1, c2, res⟩ := v
  simp only at hne h1 h2
  by_cases hw : res = "win"
  · subst hw
    rw [applyVote_eq_win]
    exact twoInc_ok m c1 c2 _ _ hne h1 h2
  · by_cases hl : res = "loss"
    · subst hl
      rw [applyVote_eq_loss]
      exact twoInc_ok m c1 c2 _ _ hne h1 h2
    · by_cases ht : res = "tie"
      · subst ht
        rw [applyVote_eq_tie]
        exact twoInc_ok m c1 c2 _ _ hne h1 h2
      · exact ⟨m, applyVote_eq_other m c1 c2 res hw hl ht⟩

theorem applyVote_err_self (m : Tally) (v : Vote) (hself : v.1 = v.2.1)
    (hlab : v.2.2 = "win" ∨ v.2.2 = "loss" ∨ v.2.2 = "tie")
    (hdiag : dget m (v.1, v.1) = none) :
    applyVote m v = .error .keyError := by
  obtain ⟨c1, c2, res⟩ := v
  simp only at hself hlab hdiag
  subst hself
  rcases hlab with rfl | rfl | rfl
  · rw [applyVote_eq_win]
    exact twoInc_err_diag _ _ _ _ hdiag
  · rw [applyVote_eq_loss]
    exact twoInc_err_diag _ _ _ _ hdiag
  · rw [applyVote_eq_tie]
    exact twoInc_err_diag _ _ _ _ hdiag

/-- Semantic helper: the cumulative effect of the vote loop on one cell. -/
def bumpFold (vs : List Vote) (k : Key) (c : Counts) : Counts :=
  vs.foldl (fun c v => bump v k c) c

theorem voteFold_char (vs : List Vote) : ∀ (m m₂ : Tally),
    (∀ A, dget m (A, A) = none) →
    vs.foldlM (fun m vote => applyVote m vote) m = .ok m₂ →
    ∀ k, dget m₂ k = (dget m k).map (bumpFold vs k) := by
  induction vs with
  | nil =>
    intro m m₂ hdiag h k
    rw [List.foldlM_nil] at h
    have hm : m = m₂ := by injection h
    rw [← hm]
    cases hmk : dget m k <;> simp [bumpFold, hmk]
  | cons v vs ih =>
    intro m m₂ hdiag h
    rw [List.foldlM_cons] at h
    cases hv : applyVote m v with
    | error err =>
      rw [hv, exc_bind_err] at h
      exact absurd h (by simp)
    | ok m₁ =>
      rw [hv, exc_bind_ok] at h
      have hchar := applyVote_char m v m₁ hdiag hv
      have hdiag₁ : ∀ A, dget m₁ (A, A) = none := by
        intro A
        rw [hchar (A, A), hdiag A]
        rfl
      intro k
      rw [ih m₁ m₂ hdiag₁ h k, hchar k]
      cases dget m k <;> simp [bumpFold]

theorem voteFold_ok (vs : List Vote) : ∀ (m : Tally),
    (∀ A, dget m (A, A) = none) →
    (∀ v ∈ vs, v.1 ≠ v.2.1 ∧ (dget m (v.1, v.2.1)).isSome ∧ (dget m (v.2.1, v.1)).isSome) →
    ∃ m₂, vs.foldlM (fun m vote => applyVote m vote) m = .ok m₂ := by
  induction vs with
  | nil => intro m _ _; exact ⟨m, rfl⟩
  | cons v vs ih =>
    intro m hdiag hdom
    obtain ⟨hne, h1, h2⟩ := hdom v (List.mem_cons_self _ _)
    obtain ⟨m₁, hv⟩ := applyVote_ok_nonself m v hne h1 h2
    have hchar := applyVote_char m v m₁ hdiag hv
    have hdiag₁ : ∀ A, dget m₁ (A, A) = none := by
      intro A
      rw [hchar (A, A), hdiag A]
      rfl
    have hdom₁ : ∀ w ∈ vs, w.1 ≠ w.2.1 ∧
        (dget m₁ (w.1, w.2.1)).isSome ∧ (dget m₁ (w.2.1, w.1)).isSome := by
      intro w hw
      obtain ⟨hne₂, hA, hB⟩ := hdom w (List.mem_cons_of_mem _ hw)
      refine ⟨hne₂, ?_, ?_⟩
      · rw [hchar (w.1, w.2.1)]
        simpa using hA
      · rw [hchar (w.2.1, w.1)]
        simpa using hB
    obtain ⟨m₂, hfold⟩ := ih m₁ hdiag₁ hdom₁
    exact ⟨m₂, by rw [List.foldlM_cons, hv, exc_bind_ok, hfold]⟩

theorem voteFold_err_self (vs : List Vote) : ∀ (m : Tally),
    (∀ A, dget m (A, A) = none) →
    (∀ v ∈ vs, (v.2.2 = "win" ∨ v.2.2 = "loss" ∨ v.2.2 = "tie") ∧
       (v.1 ≠ v.2.1 → (dget m (v.1, v.2.1)).isSome ∧ (dget m (v.2.1, v.1)).isSome)) →
    (∃ v ∈ vs, v.1 = v.2.1) →
    vs.foldlM (fun m vote => applyVote m vote) m = .error .keyError := by
  induction vs with
  | nil => intro m _ _ hself; simp at hself
  | cons v vs ih =>
    intro m hdiag hdom hself
    rw [List.foldlM_cons]
    by_cases hv : v.1 = v.2.1
    · rw [applyVote_err_self m v hv (hdom v (List.mem_cons_self _ _)).1 (hdiag v.1),
        exc_bind_err]
    · obtain ⟨h1, h2⟩ := (hdom v (List.mem_cons_self _ _)).2 hv
      obtain ⟨m₁, hok⟩ := applyVote_ok_nonself m v hv h1 h2
      have hchar := applyVote_char m v m₁ hdiag hok
      have hdiag₁ : ∀ A, dget m₁ (A, A) = none := by
        intro A
        rw [hchar (A, A), hdiag A]
        rfl
      have hdom₁ : ∀ w ∈ vs, (w.2.2 = "win" ∨ w.2.2 = "loss" ∨ w.2.2 = "tie") ∧
          (w.1 ≠ w.2.1 → (dget m₁ (w.1, w.2.1)).isSome ∧ (dget m₁ (w.2.1, w.1)).isSome) := by
        intro w hw
        obtain ⟨hlab, hdm⟩ := hdom w (List.mem_cons_of_mem _ hw)
        refine ⟨hlab, fun hne₂ => ?_⟩
        obtain ⟨hA, hB⟩ := hdm hne₂
        constructor
        · rw [hchar (w.1, w.2.1)]
          simpa using hA
        · rw [hchar (w.2.1, w.1)]
          simpa using hB
      have hself₁ : ∃ w ∈ vs, w.1 = w.2.1 := by
        obtain ⟨w, hw, hws⟩ := hself
        rcases List.mem_cons.mp hw with rfl | hw₂
        · exact absurd hws hv
        · exact ⟨w, hw₂, hws⟩
      rw [hok, exc_bind_ok]
      exact ih m₁ hdiag₁ hdom₁ hself₁

theorem initTally_diag (cands : List Cand) : ∀ A, dget (initTally cands) (A, A) = none := by
  intro A
  rw [initTally_get]
  simp

theorem getMatchups_char (e : Election) (m : Tally) (h : getMatchups e = .ok m) :
    ∀ A B, dget m (A, B) =
      if A ∈ e._candidates ∧ B ∈ e._candidates ∧ A ≠ B
      then some (bumpFold e._votes (A, B) zeroCounts) else none := by
  intro A B
  rw [voteFold_char e._votes _ m (initTally_diag e._candidates) h (A, B), initTally_get]
  by_cases hc : A ∈ e._candidates ∧ B ∈ e._candidates ∧ A ≠ B <;> simp [hc]

theorem getMatchups_ok (votes : List RawVote) (e : Election) (h : mkElection votes = .ok e)
    (hns : ∀ v ∈ e._votes, v.1 ≠ v.2.1) : ∃ m, getMatchups e = .ok m := by
  obtain ⟨hmem, _, _⟩ := mkElection_ok_cands votes e h
  apply voteFold_ok e._votes (initTally e._candidates) (initTally_diag e._candidates)
  intro v hv
  obtain ⟨h1, h2⟩ := hmem v hv
  have hne := hns v hv
  have hne₂ : v.2.1 ≠ v.1 := fun hs => hne hs.symm
  refine ⟨hne, ?_, ?_⟩
  · rw [initTally_get]
    simp [h1, h2, hne]
  · rw [initTally_get]
    simp [h1, h2, hne₂]

theorem getMatchups_err_self (votes : List RawVote) (e : Election)
    (h : mkElection votes = .ok e) (hself : ∃ v ∈ e._votes, v.1 = v.2.1) :
    getMatchups e = .error .keyError := by
  obtain ⟨hmem, _, _⟩ := mkElection_ok_cands votes e h
  apply voteFold_err_self e._votes (initTally e._candidates) (initTally_diag e._candidates)
    _ hself
  intro v hv
  refine ⟨mkElection_ok_labels votes e h v hv, fun hne => ?_⟩
  obtain ⟨h1, h2⟩ := hmem v hv
  have hne₂ : v.2.1 ≠ v.1 := fun hs => hne hs.symm
  constructor
  · rw [initTally_get]
    simp [h1, h2, hne]
  · rw [initTally_get]
    simp [h1, h2, hne₂]

theorem bump_sym_core (A B c1 c2 : Cand) (hAB : A ≠ B) (F G : Counts → Counts) (c d : Counts)
    (hFG : (F c).wins = (G d).losses ∧ (F c).losses = (G d).wins ∧ (F c).ties = (G d).ties)
    (hGF : (G c).wins = (F d).losses ∧ (G c).losses = (F d).wins ∧ (G c).ties = (F d).ties)
    (hcd : c.wins = d.losses ∧ c.losses = d.wins ∧ c.ties = d.ties) :
    ((if (c1, c2) = ((A, B) : Key) then F c
      else if (c2, c1) = ((A, B) : Key) then G c else c).wins =
      (if (c1, c2) = ((B, A) : Key) then F d
       else if (c2, c1) = ((B, A) : Key) then G d else d).losses) ∧
    ((if (c1, c2) = ((A, B) : Key) then F c
      else if (c2, c1) = ((A, B) : Key) then G c else c).losses =
      (if (c1, c2) = ((B, A) : Key) then F d
       else if (c2, c1) = ((B, A) : Key) then G d else d).wins) ∧
    ((if (c1, c2) = ((A, B) : Key) then F c
      else if (c2, c1) = ((A, B) : Key) then G c else c).ties =
      (if (c1, c2) = ((B, A) : Key) then F d
       else if (c2, c1) = ((B, A) : Key) then G d else d).ties) := by
  by_cases t1 : (c1, c2) = ((A, B) : Key)
  · have tc : c1 = A ∧ c2 = B := by simpa [Prod.mk.injEq] using t1
    have u1 : ((c2, c1) : Key) = (B, A) := by simp [Prod.mk.injEq, tc.1, tc.2]
    have u2 : ¬ ((c1, c2) : Key) = (B, A) := by
      simp only [Prod.mk.injEq]
      rintro ⟨h1, h2⟩
      exact hAB (tc.1.symm.trans h1)
    rw [if_pos t1, if_neg u2, if_pos u1]
    exact hFG
  · by_cases t2 : (c2, c1) = ((A, B) : Key)
    · have tc : c2 = A ∧ c1 = B := by simpa [Prod.mk.injEq] using t2
      have u1 : ((c1, c2) : Key) = (B, A) := by simp [Prod.mk.injEq, tc.1, tc.2]
      rw [if_neg t1, if_pos t2, if_pos u1]
      exact hGF
    · have u1 : ¬ ((c1, c2) : Key) = (B, A) := by
        simp only [Prod.mk.injEq]
        rintro ⟨h1, h2⟩
        exact t2 (by simp [Prod.mk.injEq, h1, h2])
      have u2 : ¬ ((c2, c1) : Key) = (B, A) := by
        simp only [Prod.mk.injEq]
        rintro ⟨h1, h2⟩
        exact t1 (by simp [Prod.mk.injEq, h1, h2])
      rw [if_neg t1, if_neg t2, if_neg u1, if_neg u2]
      exact hcd

theorem bump_sym (v : Vote) (A B : Cand) (hAB : A ≠ B) (c d : Counts)
    (hw : c.wins = d.losses) (hl : c.losses = d.wins) (ht : c.ties = d.ties) :
    (bump v (A, B) c).wins = (bump v (B, A) d).losses ∧
      (bump v (A, B) c).losses = (bump v (B, A) d).wins ∧
      (bump v (A, B) c).ties = (bump v (B, A) d).ties := by
  obtain ⟨c1, c2, res⟩ := v
  simp only [bump]
  by_cases hr1 : res = "win"
  · subst hr1
    simp only [if_pos rfl]
    exact bump_sym_core A B c1 c2 hAB
      (fun x => { x with wins := x.wins + 1 }) (fun x => { x with losses := x.losses + 1 }) c d
      ⟨by simp [hw], by simp [hl], by simp [ht]⟩
      ⟨by simp [hw], by simp [hl], by simp [ht]⟩ ⟨hw, hl, ht⟩
  · by_cases hr2 : res = "loss"
    · subst hr2
      have hne1 : ¬ (("loss" : Cand) = "win") := by simp
      simp only [if_neg hne1, if_pos rfl]
      exact bump_sym_core A B c1 c2 hAB
        (fun x => { x with losses := x.losses + 1 }) (fun x => { x with wins := x.wins + 1 }) c d
        ⟨by simp [hw], by simp [hl], by simp [ht]⟩
        ⟨by simp [hw], by simp [hl], by simp [ht]⟩ ⟨hw, hl, ht⟩
    · by_cases hr3 : res = "tie"
      · subst hr3
        have hne1 : ¬ (("tie" : Cand) = "win") := by simp
        have hne2 : ¬ (("tie" : Cand) = "loss") := by simp
        simp only [if_neg hne1, if_neg hne2, if_pos rfl]
        exact bump_sym_core A B c1 c2 hAB
          (fun x => { x with ties := x.ties + 1 }) (fun x => { x with ties := x.ties + 1 }) c d
          ⟨by simp [hw], by simp [hl], by simp [ht]⟩
          ⟨by simp [hw], by simp [hl], by simp [ht]⟩ ⟨hw, hl, ht⟩
      · simp only [if_neg hr1, if_neg hr2, if_neg hr3]
        exact ⟨hw, hl, ht⟩

theorem bumpFold_sym (vs : List Vote) : ∀ (A B : Cand), A ≠ B → ∀ (c d : Counts),
    c.wins = d.losses → c.losses = d.wins → c.ties = d.ties →
    (bumpFold vs (A, B) c).wins = (bumpFold vs (B, A) d).losses ∧
      (bumpFold vs (A, B) c).losses = (bumpFold vs (B, A) d).wins ∧
      (bumpFold vs (A, B) c).ties = (bumpFold vs (B, A) d).ties := by
  induction vs with
  | nil => intro A B hAB c d hw hl ht; exact ⟨hw, hl, ht⟩
  | cons v vs ih =>
    intro A B hAB c d hw hl ht
    obtain ⟨hw₂, hl₂, ht₂⟩ := bump_sym v A B hAB c d hw hl ht
    exact ih A B hAB (bump v (A, B) c) (bump v (B, A) d) hw₂ hl₂ ht₂

/-- `sum(candidate1to2.values())`: total number of votes recorded in one cell. -/
def totalCounts (c : Counts) : Nat := c.wins + c.losses + c.ties

theorem bump_total_mono (v : Vote) (k : Key) (c : Counts) :
    totalCounts c ≤ totalCounts (bump v k c) := by
  simp only [bump, totalCounts]
  split_ifs <;> simp

theorem bump_total_inc_into (v : Vote) (hne : v.1 ≠ v.2.1)
    (hlab : v.2.2 = "win" ∨ v.2.2 = "loss" ∨ v.2.2 = "tie") (c : Counts) :
    totalCounts (bump v (v.1, v.2.1) c) = totalCounts c + 1 := by
  obtain ⟨c1, c2, res⟩ := v
  simp only at hne hlab
  rcases hlab with rfl | rfl | rfl <;>
    simp [bump, totalCounts] <;> omega

theorem bumpFold_total_mono (vs : List Vote) : ∀ (k : Key) (c : Counts),
    totalCounts c ≤ totalCounts (bumpFold vs k c) := by
  induction vs with
  | nil => intro k c; exact le_refl _
  | cons v vs ih =>
    intro k c
    exact le_trans (bump_total_mono v k c) (ih k (bump v k c))

theorem bumpFold_total_pos (vs : List Vote) (v : Vote) (hv : v ∈ vs)
    (hne : v.1 ≠ v.2.1) (hlab : v.2.2 = "win" ∨ v.2.2 = "loss" ∨ v.2.2 = "tie")
    (c : Counts) : 1 ≤ totalCounts (bumpFold vs (v.1, v.2.1) c) := by
  obtain ⟨s, t, rfl⟩ := List.append_of_mem hv
  have e1 : bumpFold (s ++ v :: t) (v.1, v.2.1) c =
      bumpFold t (v.1, v.2.1) (bump v (v.1, v.2.1) (bumpFold s (v.1, v.2.1) c)) := by
    simp [bumpFold, List.foldl_append]
  rw [e1]
  have h2 := bump_total_inc_into v hne hlab (bumpFold s (v.1, v.2.1) c)
  have h3 := bumpFold_total_mono t (v.1, v.2.1)
    (bump v (v.1, v.2.1) (bumpFold s (v.1, v.2.1) c))
  omega

theorem keys_nodup_initInner (c2s : List Cand) : ∀ (m : Tally) (c1 : Cand),
    (m.map Prod.fst).Nodup → ((initInner c2s m c1).map Prod.fst).Nodup := by
  induction c2s with
  | nil => intro m c1 h; exact h
  | cons c2 rest ih =>
    intro m c1 h
    show ((initInner rest
      (if c1 = c2 then m
       else dset (dset m (c1, c2) zeroCounts) (c2, c1) zeroCounts) c1).map Prod.fst).Nodup
    apply ih
    by_cases hc : c1 = c2
    · rw [if_pos hc]; exact h
    · rw [if_neg hc]
      exact keys_nodup_dset _ _ _ (keys_nodup_dset _ _ _ h)

theorem keys_nodup_initTally (cands : List Cand) :
    ((initTally cands).map Prod.fst).Nodup := by
  have base : ∀ (c1s : List Cand) (m : Tally), (m.map Prod.fst).Nodup →
      ((c1s.foldl (fun m c1 => initInner cands m c1) m).map Prod.fst).Nodup := by
    intro c1s
    induction c1s with
    | nil => intro m h; exact h
    | cons c1 rest ih =>
      intro m h
      exact ih (initInner cands m c1) (keys_nodup_initInner cands m c1 h)
  exact base cands [] (by simp)

theorem keys_nodup_twoInc (m : Tally) (c1 c2 : Cand) (f g : Counts → Counts) (m₂ : Tally)
    (h : (incCounts m (c1, c2) f >>= fun m => incCounts m (c2, c1) g) = .ok m₂)
    (hnd : (m.map Prod.fst).Nodup) : (m₂.map Prod.fst).Nodup := by
  cases hA : dget m (c1, c2) with
  | none => rw [incCounts_err m _ f hA, exc_bind_err] at h; exact absurd h (by simp)
  | some c =>
    rw [incCounts_ok m _ f c hA, exc_bind_ok] at h
    cases hB : dget (dset m (c1, c2) (f c)) (c2, c1) with
    | none => rw [incCounts_err _ _ g hB] at h; exact absurd h (by simp)
    | some d =>
      rw [incCounts_ok _ _ g d hB] at h
      injection h with h
      subst h
      exact keys_nodup_dset _ _ _ (keys_nodup_dset _ _ _ hnd)

theorem keys_nodup_applyVote (m : Tally) (v : Vote) (m₂ : Tally)
    (h : applyVote m v = .ok m₂) (hnd : (m.map Prod.fst).Nodup) :
    (m₂.map Prod.fst).Nodup := by
  obtain ⟨c1, c2, res⟩ := v
  by_cases hr1 : res = "win"
  · subst hr1
    rw [applyVote_eq_win] at h
    exact keys_nodup_twoInc m c1 c2 _ _ m₂ h hnd
  · by_cases hr2 : res = "loss"
    · subst hr2
      rw [applyVote_eq_loss] at h
      exact keys_nodup_twoInc m c1 c2 _ _ m₂ h hnd
    · by_cases hr3 : res = "tie"
      · subst hr3
        rw [applyVote_eq_tie] at h
        exact keys_nodup_twoInc m c1 c2 _ _ m₂ h hnd
      · rw [applyVote_eq_other m c1 c2 res hr1 hr2 hr3] at h
        injection h with h
        subst h
        exact hnd

theorem keys_nodup_voteFold (vs : List Vote) : ∀ (m m₂ : Tally),
    vs.foldlM (fun m vote => applyVote m vote) m = .ok m₂ →
    (m.map Prod.fst).Nodup → (m₂.map Prod.fst).Nodup := by
  induction vs with
  | nil =>
    intro m m₂ h hnd
    rw [List.foldlM_nil] at h
    have hm : m = m₂ := by injection h
    rw [← hm]
    exact hnd
  | cons v vs ih =>
    intro m m₂ h hnd
    rw [List.foldlM_cons] at h
    cases hv : applyVote m v with
    | error err => rw [hv, exc_bind_err] at h; exact absurd h (by simp)
    | ok m₁ =>
      rw [hv, exc_bind_ok] at h
      exact ih m₁ m₂ h (keys_nodup_applyVote m v m₁ hv hnd)

theorem keys_nodup_getMatchups (e : Election) (m : Tally) (h : getMatchups e = .ok m) :
    (m.map Prod.fst).Nodup :=
  keys_nodup_voteFold e._votes _ m h (keys_nodup_initTally e._candidates)

/-- Attributes stored on a matchup edge: the counts plus
`margin = wins / (wins + losses + ties)` (exact rational in place of the
Python float division). -/
structure EdgeData where
  wins : Nat
  losses : Nat
  ties : Nat
  margin : ℚ
deriving DecidableEq, Repr

/-- A `networkx.DiGraph`: nodes in insertion order, and the edge adjacency
flattened to an association list keyed by the ordered pair. -/
structure DiGraph where
  nodes : List Cand
  edges : List (Key × EdgeData)
deriving DecidableEq, Repr

/-- The attribute record `g.add_edge(c1, c2, wins=..., losses=..., ties=..., margin=...)`. -/
def mkEdgeData (c : Counts) : EdgeData :=
  { wins := c.wins, losses := c.losses, ties := c.ties,
    margin := (c.wins : ℚ) / ((totalCounts c : Nat) : ℚ) }

/-- The edge decision of `get_matchup_graph` for one ordered pair:
an edge exists iff the cell records a nonzero number of votes. -/
def edgeFn (c : Counts) : Option EdgeData :=
  if totalCounts c ≠ 0 then some (mkEdgeData c) else none

/-- `Election.get_matchup_graph`: nodes are the candidates; for every ordered
pair whose cell has nonzero total votes, an edge with the four attributes. -/
def getMatchupGraph (e : Election) : Except PyError DiGraph := do
  let matchups ← getMatchups e
  .ok { nodes := e._candidates,
        edges := matchups.filterMap (fun p => (edgeFn p.2).map (fun d => (p.1, d))) }

theorem keys_filterMap_subset {β γ : Type} (F : β → Option γ) (m : List (Key × β)) :
    ∀ k ∈ (m.filterMap (fun p => (F p.2).map (fun d => (p.1, d)))).map Prod.fst,
      k ∈ m.map Prod.fst := by
  induction m with
  | nil => intro k hk; simp at hk
  | cons hd tl ih =>
    obtain ⟨k₁, v₁⟩ := hd
    intro k hk
    cases hF : F v₁ with
    | none =>
      rw [List.filterMap_cons] at hk
      simp only [hF, Option.map_none] at hk
      exact List.mem_cons_of_mem _ (ih k hk)
    | some d =>
      rw [List.filterMap_cons] at hk
      simp only [hF, Option.map_some] at hk
      rcases List.mem_cons.mp hk with h | h
      · simp [h]
      · exact List.mem_cons_of_mem _ (ih k h)

theorem dget_filterMap {β γ : Type} (F : β → Option γ) (m : List (Key × β))
    (hnd : (m.map Prod.fst).Nodup) (k : Key) :
    dget (m.filterMap (fun p => (F p.2).map (fun d => (p.1, d)))) k =
      (dget m k).bind F := by
  induction m with
  | nil => rfl
  | cons hd tl ih =>
    obtain ⟨k₁, v₁⟩ := hd
    simp only [List.map_cons, List.nodup_cons] at hnd
    cases hF : F v₁ with
    | some d =>
      have hred : (((k₁, v₁) :: tl).filterMap (fun p => (F p.2).map (fun d => (p.1, d)))) =
          (k₁, d) :: tl.filterMap (fun p => (F p.2).map (fun d => (p.1, d))) := by
        rw [List.filterMap_cons, hF]
        rfl
      rw [hred]
      simp only [dget]
      by_cases hk : k₁ = k
      · rw [if_pos hk, if_pos hk]
        simp [hF]
      · rw [if_neg hk, if_neg hk]
        exact ih hnd.2
    | none =>
      have hred : (((k₁, v₁) :: tl).filterMap (fun p => (F p.2).map (fun d => (p.1, d)))) =
          tl.filterMap (fun p => (F p.2).map (fun d => (p.1, d))) := by
        rw [List.filterMap_cons, hF]
        rfl
      rw [hred, ih hnd.2]
      simp only [dget]
      by_cases hk : k₁ = k
      · rw [if_pos hk]
        subst hk
        rw [dget_eq_none_of_not_mem_keys tl k₁ hnd.1]
        simp [hF]
      · rw [if_neg hk]

theorem dget_of_mem_nodup {β : Type} (m : List (Key × β))
    (hnd : (m.map Prod.fst).Nodup) (k : Key) (v : β) (h : (k, v) ∈ m) :
    dget m k = some v := by
  induction m with
  | nil => simp at h
  | cons hd tl ih =>
    obtain ⟨k₁, v₁⟩ := hd
    simp only [List.map_cons, List.nodup_cons] at hnd
    rcases List.mem_cons.mp h with h1 | h1
    · obtain ⟨e1, e2⟩ : k = k₁ ∧ v = v₁ := Prod.mk.injEq .. ▸ h1
      subst e1; subst e2
      simp [dget]
    · have hk : k₁ ≠ k := by
        intro hk
        subst hk
        exact hnd.1 (List.mem_map.mpr ⟨(k₁, v), h1, rfl⟩)
      simp only [dget, if_neg hk]
      exact ih hnd.2 h1

theorem keys_filter_subset {β : Type} (q : Key → Bool) (m : List (Key × β)) :
    ∀ k ∈ (m.filter (fun p => q p.1)).map Prod.fst, k ∈ m.map Prod.fst := by
  intro k hk
  obtain ⟨p, hp, rfl⟩ := List.mem_map.mp hk
  exact List.mem_map.mpr ⟨p, List.mem_of_mem_filter hp, rfl⟩

theorem dget_filter_keyPred {β : Type} (q : Key → Bool) (m : List (Key × β))
    (hnd : (m.map Prod.fst).Nodup) (k : Key) :
    dget (m.filter (fun p => q p.1)) k = if q k then dget m k else none := by
  induction m with
  | nil => by_cases hq : q k <;> simp [dget, hq]
  | cons hd tl ih =>
    obtain ⟨k₁, v₁⟩ := hd
    simp only [List.map_cons, List.nodup_cons] at hnd
    by_cases hq₁ : q k₁
    · rw [List.filter_cons_of_pos (by simpa using hq₁)]
      show (if k₁ = k then some v₁ else dget (tl.filter _) k) = _
      by_cases hk : k₁ = k
      · subst hk
        rw [if_pos rfl, if_pos hq₁]
        simp [dget]
      · rw [if_neg hk, ih hnd.2]
        by_cases hq : q k
        · rw [if_pos hq, if_pos hq]
          simp [dget, hk]
        · rw [if_neg hq, if_neg hq]
    · rw [List.filter_cons_of_neg (by simpa using hq₁)]
      rw [ih hnd.2]
      by_cases hk : k₁ = k
      · subst hk
        rw [if_neg hq₁]
        by_cases hq : q k₁
        · exact absurd hq hq₁
        · rw [if_neg hq]
      · by_cases hq : q k
        · rw [if_pos hq, if_pos hq]
          simp [dget, hk]
        · rw [if_neg hq, if_neg hq]

theorem keys_filterMap_sublist {β γ : Type} (F : β → Option γ) (m : List (Key × β)) :
    ((m.filterMap (fun p => (F p.2).map (fun d => (p.1, d)))).map Prod.fst).Sublist
      (m.map Prod.fst) := by
  induction m with
  | nil => simp
  | cons hd tl ih =>
    obtain ⟨k₁, v₁⟩ := hd
    cases hF : F v₁ with
    | some d =>
      have hred : (((k₁, v₁) :: tl).filterMap (fun p => (F p.2).map (fun d => (p.1, d)))) =
          (k₁, d) :: tl.filterMap (fun p => (F p.2).map (fun d => (p.1, d))) := by
        rw [List.filterMap_cons, hF]
        rfl
      rw [hred]
      simpa using List.Sublist.cons₂ k₁ ih
    | none =>
      have hred : (((k₁, v₁) :: tl).filterMap (fun p => (F p.2).map (fun d => (p.1, d)))) =
          tl.filterMap (fun p => (F p.2).map (fun d => (p.1, d))) := by
        rw [List.filterMap_cons, hF]
        rfl
      rw [hred]
      exact List.Sublist.cons _ ih

theorem getMatchupGraph_parts (e : Election) (g : DiGraph) (h : getMatchupGraph e = .ok g) :
    ∃ m, getMatchups e = .ok m ∧ g.nodes = e._candidates ∧
      g.edges = m.filterMap (fun p => (edgeFn p.2).map (fun d => (p.1, d))) := by
  cases hm : getMatchups e with
  | error err =>
    rw [getMatchupGraph, hm, exc_bind_err] at h
    exact absurd h (by simp)
  | ok m =>
    rw [getMatchupGraph, hm, exc_bind_ok] at h
    injection h with h
    exact ⟨m, rfl, congrArg DiGraph.nodes h.symm, congrArg DiGraph.edges h.symm⟩

theorem getMatchupGraph_err (e : Election) (err : PyError) (h : getMatchups e = .error err) :
    getMatchupGraph e = .error err := by
  rw [getMatchupGraph, h, exc_bind_err]

theorem keys_nodup_matchupGraph (e : Election) (g : DiGraph) (h : getMatchupGraph e = .ok g) :
    (g.edges.map Prod.fst).Nodup := by
  obtain ⟨m, hm, _, hedges⟩ := getMatchupGraph_parts e g h
  rw [hedges]
  exact (keys_filterMap_sublist edgeFn m).nodup (keys_nodup_getMatchups e m hm)

theorem getMatchupGraph_dget (e : Election) (g : DiGraph) (h : getMatchupGraph e = .ok g) :
    ∃ m, getMatchups e = .ok m ∧ ∀ k, dget g.edges k = (dget m k).bind edgeFn := by
  obtain ⟨m, hm, _, hedges⟩ := getMatchupGraph_parts e g h
  exact ⟨m, hm, fun k => by
    rw [hedges, dget_filterMap edgeFn m (keys_nodup_getMatchups e m hm) k]⟩

/-- One iteration of the `get_victory_graph` loop: for edge `(u, v)` read
`margin` off the reverse edge `(v, u)` (a missing reverse edge would make
`get_edge_data` return `None` and the subscript raise `TypeError`), and mark
`(u, v)` for removal when its margin is not strictly larger. -/
def victoryStep (g : DiGraph) (acc : List Key) (p : Key × EdgeData) :
    Except PyError (List Key) :=
  match dget g.edges (p.1.2, p.1.1) with
  | none => .error .typeError
  | some d₂ => .ok (if p.2.margin ≤ d₂.margin then acc ++ [p.1] else acc)

/-- The loop of `get_victory_graph` collecting `edges_to_remove`. -/
def victoryRemoveList (g : DiGraph) : Except PyError (List Key) :=
  g.edges.foldlM (victoryStep g) []

/-- `Election.get_victory_graph`: the matchup graph with the
`edges_to_remove` deleted. -/
def getVictoryGraph (e : Election) : Except PyError DiGraph := do
  let matchups ← getMatchupGraph e
  let edgesToRemove ← victoryRemoveList matchups
  .ok { matchups with edges := matchups.edges.filter (fun p => decide (p.1 ∉ edgesToRemove)) }

theorem victoryRemoveFold_char (g : DiGraph) (edges : List (Key × EdgeData)) :
    ∀ (acc L : List Key),
    edges.foldlM (victoryStep g) acc = .ok L →
    ∀ k, k ∈ L ↔ k ∈ acc ∨ ∃ p ∈ edges, p.1 = k ∧
      ∃ d₂, dget g.edges (k.2, k.1) = some d₂ ∧ p.2.margin ≤ d₂.margin := by
  induction edges with
  | nil =>
    intro acc L h k
    rw [List.foldlM_nil] at h
    have hm : acc = L := by injection h
    rw [← hm]
    simp
  | cons p rest ih =>
    intro acc L h k
    rw [List.foldlM_cons] at h
    cases hrev : dget g.edges (p.1.2, p.1.1) with
    | none =>
      rw [show victoryStep g acc p = .error .typeError by rw [victoryStep, hrev]] at h
      rw [exc_bind_err] at h
      exact absurd h (by simp)
    | some d₂ =>
      rw [show victoryStep g acc p =
          .ok (if p.2.margin ≤ d₂.margin then acc ++ [p.1] else acc) by
        rw [victoryStep, hrev]] at h
      rw [exc_bind_ok] at h
      rw [ih _ L h k]
      by_cases hm : p.2.margin ≤ d₂.margin
      · rw [if_pos hm]
        simp only [List.mem_append, List.mem_cons, List.not_mem_nil, or_false]
        constructor
        · rintro ((hacc | rfl) | ⟨q, hq, rfl, d₃, hd₃, hm₃⟩)
          · exact Or.inl hacc
          · exact Or.inr ⟨p, Or.inl rfl, rfl, d₂, by simpa using hrev, hm⟩
          · exact Or.inr ⟨q, Or.inr hq, rfl, d₃, hd₃, hm₃⟩
        · rintro (hacc | ⟨q, hq | hq, rfl, d₃, hd₃, hm₃⟩)
          · exact Or.inl (Or.inl hacc)
          · subst hq
            exact Or.inl (Or.inr rfl)
          · exact Or.inr ⟨q, hq, rfl, d₃, hd₃, hm₃⟩
      · rw [if_neg hm]
        simp only [List.mem_cons]
        constructor
        · rintro (hacc | ⟨q, hq, rfl, d₃, hd₃, hm₃⟩)
          · exact Or.inl hacc
          · exact Or.inr ⟨q, Or.inr hq, rfl, d₃, hd₃, hm₃⟩
        · rintro (hacc | ⟨q, hq | hq, rfl, d₃, hd₃, hm₃⟩)
          · exact Or.inl hacc
          · subst hq
            rw [hrev] at hd₃
            injection hd₃ with hd₃
            subst hd₃
            exact absurd hm₃ hm
          · exact Or.inr ⟨q, hq, rfl, d₃, hd₃, hm₃⟩

theorem victoryFold_ok (g : DiGraph) (edges : List (Key × EdgeData)) :
    ∀ (acc : List Key),
    (∀ p ∈ edges, (dget g.edges (p.1.2, p.1.1)).isSome) →
    ∃ L, edges.foldlM (victoryStep g) acc = .ok L := by
  induction edges with
  | nil => intro acc _; exact ⟨acc, rfl⟩
  | cons p rest ih =>
    intro acc hrev
    obtain ⟨d₂, hd₂⟩ := Option.isSome_iff_exists.mp (hrev p (List.mem_cons_self _ _))
    obtain ⟨L, hL⟩ := ih (if p.2.margin ≤ d₂.margin then acc ++ [p.1] else acc)
      (fun q hq => hrev q (List.mem_cons_of_mem _ hq))
    refine ⟨L, ?_⟩
    rw [List.foldlM_cons,
      show victoryStep g acc p =
        .ok (if p.2.margin ≤ d₂.margin then acc ++ [p.1] else acc) by
          rw [victoryStep, hd₂], exc_bind_ok, hL]

theorem victoryFold_rev_isSome (g : DiGraph) (edges : List (Key × EdgeData)) :
    ∀ (acc L : List Key),
    edges.foldlM (victoryStep g) acc = .ok L →
    ∀ p ∈ edges, (dget g.edges (p.1.2, p.1.1)).isSome := by
  induction edges with
  | nil => intro acc L _ p hp; simp at hp
  | cons q rest ih =>
    intro acc L h p hp
    rw [List.foldlM_cons] at h
    cases hrev : dget g.edges (q.1.2, q.1.1) with
    | none =>
      rw [show victoryStep g acc q = .error .typeError by rw [victoryStep, hrev],
        exc_bind_err] at h
      exact absurd h (by simp)
    | some d₂ =>
      rw [show victoryStep g acc q =
          .ok (if q.2.margin ≤ d₂.margin then acc ++ [q.1] else acc) by
        rw [victoryStep, hrev], exc_bind_ok] at h
      rcases List.mem_cons.mp hp with rfl | hp₂
      · simp [hrev]
      · exact ih _ L h p hp₂

theorem victoryRemoveList_mem (g : DiGraph) (hnd : (g.edges.map Prod.fst).Nodup)
    (L : List Key) (h : victoryRemoveList g = .ok L) (k : Key) :
    k ∈ L ↔ ∃ d, dget g.edges k = some d ∧
      ∃ d₂, dget g.edges (k.2, k.1) = some d₂ ∧ d.margin ≤ d₂.margin := by
  rw [victoryRemoveFold_char g g.edges [] L h k]
  simp only [List.not_mem_nil, false_or]
  constructor
  · rintro ⟨p, hp, rfl, d₂, hd₂, hm⟩
    exact ⟨p.2, dget_of_mem_nodup _ hnd p.1 p.2 hp, d₂, hd₂, hm⟩
  · rintro ⟨d, hd, d₂, hd₂, hm⟩
    exact ⟨(k, d), mem_of_dget_eq_some _ _ _ hd, rfl, d₂, hd₂, hm⟩

theorem getVictoryGraph_parts (e : Election) (g : DiGraph) (h : getVictoryGraph e = .ok g) :
    ∃ mg L, getMatchupGraph e = .ok mg ∧ victoryRemoveList mg = .ok L ∧
      g.nodes = mg.nodes ∧ g.edges = mg.edges.filter (fun p => decide (p.1 ∉ L)) := by
  cases hmg : getMatchupGraph e with
  | error err =>
    rw [getVictoryGraph, hmg, exc_bind_err] at h
    exact absurd h (by simp)
  | ok mg =>
    rw [getVictoryGraph, hmg, exc_bind_ok] at h
    cases hL : victoryRemoveList mg with
    | error err =>
      rw [hL, exc_bind_err] at h
      exact absurd h (by simp)
    | ok L =>
      rw [hL, exc_bind_ok] at h
      injection h with h
      subst h
      exact ⟨mg, L, rfl, hL, rfl, rfl⟩

theorem getVictoryGraph_err (e : Election) (err : PyError)
    (h : getMatchupGraph e = .error err) : getVictoryGraph e = .error err := by
  rw [getVictoryGraph, h, exc_bind_err]

theorem keys_nodup_victoryGraph (e : Election) (g : DiGraph) (h : getVictoryGraph e = .ok g) :
    (g.edges.map Prod.fst).Nodup := by
  obtain ⟨mg, L, hmg, hL, _, hedges⟩ := getVictoryGraph_parts e g h
  rw [hedges]
  exact ((List.filter_sublist _).map Prod.fst).nodup (keys_nodup_matchupGraph e mg hmg)

theorem getVictoryGraph_dget (e : Election) (g mg : DiGraph)
    (hmg : getMatchupGraph e = .ok mg) (h : getVictoryGraph e = .ok g) :
    g.nodes = mg.nodes ∧
      ∀ k d, dget g.edges k = some d ↔
        (dget mg.edges k = some d ∧
          ∃ d₂, dget mg.edges (k.2, k.1) = some d₂ ∧ d₂.margin < d.margin) := by
  obtain ⟨mg₂, L, hmg₂, hL, hnodes, hedges⟩ := getVictoryGraph_parts e g h
  have hmm : mg = mg₂ := by
    rw [hmg] at hmg₂
    injection hmg₂
  subst hmm
  have hnd := keys_nodup_matchupGraph e mg hmg₂
  refine ⟨hnodes, fun k d => ?_⟩
  have hget : dget g.edges k = if k ∉ L then dget mg.edges k else none := by
    rw [hedges]
    have := dget_filter_keyPred (fun k => decide (k ∉ L)) mg.edges hnd k
    simp only [decide_eq_true_eq] at this
    rw [this]
  rw [hget]
  by_cases hkL : k ∈ L
  · simp only [hkL, not_true, if_neg, if_false]
    rw [victoryRemoveList_mem mg hnd L hL k] at hkL
    obtain ⟨d₃, hd₃, d₂, hd₂, hm⟩ := hkL
    constructor
    · intro hfalse
      exact absurd hfalse (by simp)
    · rintro ⟨hdk, d₄, hd₄, hlt⟩
      rw [hdk] at hd₃
      injection hd₃ with hd₃
      subst hd₃
      rw [hd₄] at hd₂
      injection hd₂ with hd₂
      subst hd₂
      exact absurd hm (not_le.mpr hlt)
  · simp only [hkL, not_false_iff, if_pos]
    constructor
    · intro hdk
      refine ⟨hdk, ?_⟩
      have hsome := victoryFold_rev_isSome mg mg.edges [] L hL (k, d)
        (mem_of_dget_eq_some _ _ _ hdk)
      obtain ⟨d₂, hd₂⟩ := Option.isSome_iff_exists.mp hsome
      refine ⟨d₂, hd₂, ?_⟩
      by_contra hnot
      push_neg at hnot
      exact hkL ((victoryRemoveList_mem mg hnd L hL k).mpr ⟨d, hdk, d₂, hd₂, hnot⟩)
    · rintro ⟨hdk, _⟩
      exact hdk

theorem zeroCounts_fields : zeroCounts.wins = zeroCounts.losses ∧
    zeroCounts.losses = zeroCounts.wins ∧ zeroCounts.ties = zeroCounts.ties :=
  ⟨rfl, rfl, rfl⟩

theorem matchup_cell_sym (e : Election) (m : Tally) (hm : getMatchups e = .ok m) :
    ∀ A B c, dget m (A, B) = some c →
      ∃ c₂, dget m (B, A) = some c₂ ∧
        c.wins = c₂.losses ∧ c.losses = c₂.wins ∧ c.ties = c₂.ties := by
  intro A B c hc
  have hAB := getMatchups_char e m hm A B
  have hBA := getMatchups_char e m hm B A
  rw [hc] at hAB
  by_cases hcond : A ∈ e._candidates ∧ B ∈ e._candidates ∧ A ≠ B
  · rw [if_pos hcond] at hAB
    injection hAB with hAB
    have hcond₂ : B ∈ e._candidates ∧ A ∈ e._candidates ∧ B ≠ A :=
      ⟨hcond.2.1, hcond.1, fun hs => hcond.2.2 hs.symm⟩
    rw [if_pos hcond₂] at hBA
    obtain ⟨hw, hl, ht⟩ := bumpFold_sym e._votes A B hcond.2.2 zeroCounts zeroCounts
      rfl rfl rfl
    refine ⟨bumpFold e._votes (B, A) zeroCounts, hBA, ?_, ?_, ?_⟩ <;>
      rw [hAB] <;> assumption
  · rw [if_neg hcond] at hAB
    exact absurd hAB (by simp)

theorem matchup_cell_total_sym (e : Election) (m : Tally) (hm : getMatchups e = .ok m) :
    ∀ A B c, dget m (A, B) = some c →
      ∃ c₂, dget m (B, A) = some c₂ ∧ totalCounts c₂ = totalCounts c := by
  intro A B c hc
  obtain ⟨c₂, hc₂, hw, hl, ht⟩ := matchup_cell_sym e m hm A B c hc
  refine ⟨c₂, hc₂, ?_⟩
  simp only [totalCounts]
  omega

theorem matchupGraph_rev_isSome (e : Election) (mg : DiGraph)
    (hmg : getMatchupGraph e = .ok mg) :
    ∀ p ∈ mg.edges, (dget mg.edges (p.1.2, p.1.1)).isSome := by
  obtain ⟨m, hm, hdget⟩ := getMatchupGraph_dget e mg hmg
  intro p hp
  have hnd := keys_nodup_matchupGraph e mg hmg
  have hps : dget mg.edges p.1 = some p.2 := dget_of_mem_nodup _ hnd p.1 p.2 hp
  rw [hdget p.1] at hps
  cases hc : dget m p.1 with
  | none => rw [hc] at hps; exact absurd hps (by simp)
  | some c =>
    rw [hc] at hps
    have htot : totalCounts c ≠ 0 := by
      intro hz
      simp [edgeFn, hz] at hps
    obtain ⟨c₂, hc₂, htot₂⟩ := matchup_cell_total_sym e m hm p.1.1 p.1.2 c
      (by rw [← hc])
    rw [hdget (p.1.2, p.1.1)]
    have : dget m (p.1.2, p.1.1) = some c₂ := hc₂
    rw [this]
    simp [edgeFn, htot₂, htot]

theorem getMatchupGraph_ok (e : Election) (m : Tally) (hm : getMatchups e = .ok m) :
    ∃ g, getMatchupGraph e = .ok g := by
  rw [getMatchupGraph, hm, exc_bind_ok]
  exact ⟨_, rfl⟩

theorem getVictoryGraph_ok (e : Election) (mg : DiGraph)
    (hmg : getMatchupGraph e = .ok mg) : ∃ vg, getVictoryGraph e = .ok vg := by
  obtain ⟨L, hL⟩ := victoryFold_ok mg mg.edges [] (matchupGraph_rev_isSome e mg hmg)
  rw [getVictoryGraph, hmg, exc_bind_ok]
  rw [show victoryRemoveList mg = .ok L from hL, exc_bind_ok]
  exact ⟨_, rfl⟩

/-- True when node `n` has no incoming edge from a node still in `remaining`. -/
def noIncoming (edges : List Key) (remaining : List Cand) (n : Cand) : Bool :=
  ! edges.any (fun p => decide (p.2 = n ∧ p.1 ∈ remaining))

/-- Kahn-style elimination, the common model of `networkx.find_cycle`
(it gets stuck iff the graph has a directed cycle) and of
`networkx.topological_sort` (its output when it does not get stuck). -/
def kahnGo : Nat → List Cand → List Key → Option (List Cand)
  | 0, remaining, _ => if remaining.isEmpty then some [] else none
  | fuel + 1, remaining, edges =>
    if remaining.isEmpty then some []
    else
      match remaining.find? (noIncoming edges remaining) with
      | none => none
      | some n => (kahnGo fuel (remaining.erase n) edges).map (fun l => n :: l)

/-- `networkx.topological_sort`, defined for every graph; `none` iff cyclic. -/
def topoSort? (g : DiGraph) : Option (List Cand) :=
  kahnGo g.nodes.length g.nodes (g.edges.map Prod.fst)

/-- `networkx.find_cycle` succeeds (equivalently,
`networkx.is_directed_acyclic_graph` is false) iff no topological order exists. -/
def hasCycle (g : DiGraph) : Bool := (topoSort? g).isNone

theorem kahnGo_perm : ∀ (fuel : Nat) (remaining : List Cand) (edges : List Key)
    (l : List Cand), kahnGo fuel remaining edges = some l → l.Perm remaining := by
  intro fuel
  induction fuel with
  | zero =>
    intro remaining edges l h
    unfold kahnGo at h
    by_cases he : remaining.isEmpty
    · rw [if_pos he] at h
      injection h with h
      rw [← h, List.isEmpty_iff.mp he]
    · rw [if_neg he] at h
      exact absurd h (by simp)
  | succ fuel ih =>
    intro remaining edges l h
    unfold kahnGo at h
    by_cases he : remaining.isEmpty
    · rw [if_pos he] at h
      injection h with h
      rw [← h, List.isEmpty_iff.mp he]
    · rw [if_neg he] at h
      cases hf : remaining.find? (noIncoming edges remaining) with
      | none => rw [hf] at h; exact absurd h (by simp)
      | some n =>
        rw [hf] at h
        have h₂ : Option.map (fun l => n :: l) (kahnGo fuel (remaining.erase n) edges) =
            some l := h
        cases hr : kahnGo fuel (remaining.erase n) edges with
        | none => rw [hr] at h₂; exact absurd h₂ (by simp)
        | some l₂ =>
          rw [hr] at h₂
          have h₃ : some (n :: l₂) = some l := h₂
          injection h₃ with h₃
          rw [← h₃]
          have hmem : n ∈ remaining := List.mem_of_find?_eq_some hf
          exact ((ih _ edges l₂ hr).cons n).trans (List.perm_cons_erase hmem).symm

theorem noIncoming_true (edges : List Key) (remaining : List Cand) (n : Cand)
    (h : noIncoming edges remaining n = true) :
    ∀ p ∈ edges, ¬ (p.2 = n ∧ p.1 ∈ remaining) := by
  intro p hp
  simp only [noIncoming, Bool.not_eq_true', List.any_eq_false, decide_eq_true_eq] at h
  exact h p hp

theorem kahnGo_before : ∀ (fuel : Nat) (remaining : List Cand) (edges : List Key)
    (l : List Cand), kahnGo fuel remaining edges = some l →
    ∀ u v, (u, v) ∈ edges → u ∈ remaining → v ∈ remaining →
      l.indexOf u < l.indexOf v := by
  intro fuel
  induction fuel with
  | zero =>
    intro remaining edges l h u v huv hu hv
    unfold kahnGo at h
    by_cases he : remaining.isEmpty
    · rw [List.isEmpty_iff.mp he] at hu
      simp at hu
    · rw [if_neg he] at h
      exact absurd h (by simp)
  | succ fuel ih =>
    intro remaining edges l h u v huv hu hv
    unfold kahnGo at h
    by_cases he : remaining.isEmpty
    · rw [List.isEmpty_iff.mp he] at hu
      simp at hu
    · rw [if_neg he] at h
      cases hf : remaining.find? (noIncoming edges remaining) with
      | none => rw [hf] at h; exact absurd h (by simp)
      | some n =>
        rw [hf] at h
        have h₂ : Option.map (fun l => n :: l) (kahnGo fuel (remaining.erase n) edges) =
            some l := h
        cases hr : kahnGo fuel (remaining.erase n) edges with
        | none => rw [hr] at h₂; exact absurd h₂ (by simp)
        | some l₂ =>
          rw [hr] at h₂
          have h₃ : some (n :: l₂) = some l := h₂
          injection h₃ with h₃
          rw [← h₃]
          have hni := noIncoming_true edges remaining n (List.find?_some hf)
          have hvn : v ≠ n := by
            intro hvn
            subst hvn
            exact hni (u, v) huv ⟨rfl, hu⟩
          by_cases hun : u = n
          · subst hun
            rw [List.indexOf_cons_self]
            rw [List.indexOf_cons_ne _ (fun hs => hvn hs.symm)]
            exact Nat.succ_pos _
          · rw [List.indexOf_cons_ne _ (fun hs => hun hs.symm),
              List.indexOf_cons_ne _ (fun hs => hvn hs.symm)]
            exact Nat.succ_lt_succ (ih _ edges l₂ hr u v huv
              ((List.mem_erase_of_ne hun).mpr hu) ((List.mem_erase_of_ne hvn).mpr hv))

theorem kahnGo_noEdges : ∀ (fuel : Nat) (remaining : List Cand),
    remaining.length ≤ fuel → kahnGo fuel remaining [] = some remaining := by
  intro fuel
  induction fuel with
  | zero =>
    intro remaining hlen
    have : remaining = [] := List.length_eq_zero.mp (Nat.le_zero.mp hlen)
    subst this
    rfl
  | succ fuel ih =>
    intro remaining hlen
    cases remaining with
    | nil => rfl
    | cons r rest =>
      unfold kahnGo
      rw [if_neg (by simp : ¬ (((r :: rest).isEmpty) = true))]
      rw [List.find?_cons_of_pos _ (by simp [noIncoming])]
      show Option.map (fun l => r :: l) (kahnGo fuel ((r :: rest).erase r) []) =
        some (r :: rest)
      rw [List.erase_cons_head, ih rest (Nat.le_of_succ_le_succ hlen)]
      rfl

/-- One insertion step of the stable sort: a later element goes after every
existing element that compares `≼` to it, exactly like Python `sorted`
(which is stable, also under `reverse=True`). -/
def pyInsert {α : Type} (r : α → α → Prop) [DecidableRel r] (a : α) : List α → List α
  | [] => [a]
  | b :: l => if r b a then b :: pyInsert r a l else a :: b :: l

/-- Python `sorted(xs, key=...)` modelled as a stable insertion sort with
respect to the total preorder `r` (`r x y` meaning `x` sorts no later than `y`). -/
def pySort {α : Type} (r : α → α → Prop) [DecidableRel r] (l : List α) : List α :=
  l.foldl (fun acc x => pyInsert r x acc) []

theorem pyInsert_perm {α : Type} (r : α → α → Prop) [DecidableRel r] (a : α) :
    ∀ (l : List α), (pyInsert r a l).Perm (a :: l) := by
  intro l
  induction l with
  | nil => exact List.Perm.refl _
  | cons b l ih =>
    by_cases h : r b a
    · rw [pyInsert, if_pos h]
      exact (ih.cons b).trans (List.Perm.swap a b l)
    · rw [pyInsert, if_neg h]

theorem pySort_perm {α : Type} (r : α → α → Prop) [DecidableRel r] (l : List α) :
    (pySort r l).Perm l := by
  have main : ∀ (l acc : List α),
      (l.foldl (fun acc x => pyInsert r x acc) acc).Perm (l ++ acc) := by
    intro l
    induction l with
    | nil => intro acc; simp
    | cons x l ih =>
      intro acc
      rw [List.foldl_cons]
      refine (ih (pyInsert r x acc)).trans ?_
      exact (List.Perm.append_left l (pyInsert_perm r x acc)).trans List.perm_middle
  simpa using main l []

theorem mem_pyInsert {α : Type} (r : α → α → Prop) [DecidableRel r] (a x : α)
    (l : List α) : x ∈ pyInsert r a l ↔ x = a ∨ x ∈ l := by
  rw [(pyInsert_perm r a l).mem_iff]
  simp

theorem pyInsert_pairwise {α : Type} (r : α → α → Prop) [DecidableRel r]
    (htot : ∀ a b, r a b ∨ r b a) (htrans : ∀ a b c, r a b → r b c → r a c) (a : α) :
    ∀ (l : List α), l.Pairwise r → (pyInsert r a l).Pairwise r := by
  intro l
  induction l with
  | nil => intro _; simp [pyInsert]
  | cons b l ih =>
    intro hp
    rw [List.pairwise_cons] at hp
    by_cases h : r b a
    · rw [pyInsert, if_pos h]
      rw [List.pairwise_cons]
      refine ⟨?_, ih hp.2⟩
      intro x hx
      rcases (mem_pyInsert r a x l).mp hx with rfl | hx₂
      · exact h
      · exact hp.1 x hx₂
    · rw [pyInsert, if_neg h]
      rw [List.pairwise_cons]
      refine ⟨?_, List.pairwise_cons.mpr hp⟩
      intro x hx
      have hab : r a b := (htot a b).resolve_right h
      rcases List.mem_cons.mp hx with rfl | hx₂
      · exact hab
      · exact htrans a b x hab (hp.1 x hx₂)

theorem pySort_pairwise {α : Type} (r : α → α → Prop) [DecidableRel r]
    (htot : ∀ a b, r a b ∨ r b a) (htrans : ∀ a b c, r a b → r b c → r a c)
    (l : List α) : (pySort r l).Pairwise r := by
  have main : ∀ (l acc : List α), acc.Pairwise r →
      (l.foldl (fun acc x => pyInsert r x acc) acc).Pairwise r := by
    intro l
    induction l with
    | nil => intro acc h; exact h
    | cons x l ih =>
      intro acc h
      rw [List.foldl_cons]
      exact ih (pyInsert r x acc) (pyInsert_pairwise r htot htrans x acc h)
  exact main l [] (List.Pairwise.nil)

/-- One step of the ranked-pairs loop: `g.add_edge(u, v, **data)`, then
`networkx.find_cycle(g)`; on success `g.remove_edge(u, v)` (reject the edge),
on `NetworkXNoCycle` keep it. -/
def rpStep (g : DiGraph) (p : Key × EdgeData) : DiGraph :=
  let g₂ : DiGraph := { g with edges := dset g.edges p.1 p.2 }
  if hasCycle g₂ then { g₂ with edges := g₂.edges.filter (fun q => decide (q.1 ≠ p.1)) }
  else g₂

/-- The victory edges sorted by margin descending
(`edges.sort(key=lambda x: x[2]["margin"], reverse=True)`, a stable sort). -/
def sortEdgesDesc (edges : List (Key × EdgeData)) : List (Key × EdgeData) :=
  pySort (fun a b => b.2.margin ≤ a.2.margin) edges

/-- The graph assembled by the ranked-pairs loop: start from an empty graph
over the victory nodes and process the sorted edges. -/
def rpFinal (vg : DiGraph) : DiGraph :=
  (sortEdgesDesc vg.edges).foldl rpStep { nodes := vg.nodes, edges := [] }

/-- `Election.ranking_by_ranked_pairs`: build the final graph, `assert` it is
acyclic, and return its topological sort. -/
def rankingByRankedPairs (e : Election) : Except PyError (List Cand) := do
  let matchups ← getVictoryGraph e
  match topoSort? (rpFinal matchups) with
  | some l => .ok l
  | none => .error .assertionError

theorem filter_dset_fresh {β : Type} (m : List (Key × β)) (k : Key) (v : β)
    (h : k ∉ m.map Prod.fst) :
    (dset m k v).filter (fun q => decide (q.1 ≠ k)) = m := by
  induction m with
  | nil => simp [dset]
  | cons hd tl ih =>
    obtain ⟨k₁, v₁⟩ := hd
    simp only [List.map_cons, List.mem_cons] at h
    push_neg at h
    have hk : ¬ k₁ = k := fun e => h.1 e.symm
    rw [show dset ((k₁, v₁) :: tl) k v = (k₁, v₁) :: dset tl k v by
      rw [dset, if_neg hk]]
    rw [List.filter_cons_of_pos (by simpa using hk), ih h.2]

theorem hasCycle_congr (g₁ g₂ : DiGraph) (hn : g₁.nodes = g₂.nodes)
    (he : g₁.edges = g₂.edges) : hasCycle g₁ = hasCycle g₂ := by
  rw [hasCycle, hasCycle, topoSort?, topoSort?, hn, he]

theorem hasCycle_empty (nodes : List Cand) :
    hasCycle { nodes := nodes, edges := [] } = false := by
  rw [hasCycle, topoSort?]
  show (kahnGo nodes.length nodes (List.map Prod.fst [])).isNone = false
  rw [show List.map (Prod.fst (β := EdgeData)) [] = [] from rfl]
  rw [kahnGo_noEdges nodes.length nodes (le_refl _)]
  rfl

theorem rpStep_nodes (g : DiGraph) (p : Key × EdgeData) : (rpStep g p).nodes = g.nodes := by
  rw [rpStep]
  split_ifs <;> rfl

theorem rpStep_fresh (g : DiGraph) (p : Key × EdgeData) (E : List (Key × EdgeData))
    (hfresh : p.1 ∉ g.edges.map Prod.fst)
    (hcyc : hasCycle g = false)
    (hsub : ∀ q ∈ g.edges, q ∈ E) (hpE : p ∈ E) :
    hasCycle (rpStep g p) = false ∧
      (∀ q ∈ (rpStep g p).edges, q ∈ E) ∧
      (∀ k, k ∈ (rpStep g p).edges.map Prod.fst →
        k ∈ g.edges.map Prod.fst ∨ k = p.1) := by
  have hrem : (dset g.edges p.1 p.2).filter (fun q => decide (q.1 ≠ p.1)) = g.edges :=
    filter_dset_fresh g.edges p.1 p.2 hfresh
  by_cases hc : hasCycle { nodes := g.nodes, edges := dset g.edges p.1 p.2 }
  · have hstep : rpStep g p = g := by
      simp only [rpStep]
      rw [if_pos hc]
      show ({ nodes := g.nodes, edges := (dset g.edges p.1 p.2).filter (fun q => decide (q.1 ≠ p.1)) } : DiGraph) = g
      rw [hrem]
    rw [hstep]
    exact ⟨hcyc, hsub, fun k hk => Or.inl hk⟩
  · have hstep : rpStep g p = { nodes := g.nodes, edges := dset g.edges p.1 p.2 } := by
      simp only [rpStep]
      rw [if_neg hc]
    rw [hstep]
    rw [Bool.not_eq_true] at hc
    refine ⟨hc, ?_, ?_⟩
    · intro q hq
      rcases mem_dset g.edges p.1 p.2 q hq with rfl | hq₂
      · exact hpE
      · exact hsub q hq₂
    · intro k hk
      obtain ⟨q, hq, rfl⟩ := List.mem_map.mp hk
      rcases mem_dset g.edges p.1 p.2 q hq with rfl | hq₂
      · exact Or.inr rfl
      · exact Or.inl (List.mem_map.mpr ⟨q, hq₂, rfl⟩)

theorem rpFold_invariant (E : List (Key × EdgeData)) :
    ∀ (es : List (Key × EdgeData)) (g : DiGraph),
    hasCycle g = false →
    (es.map Prod.fst).Nodup →
    (∀ q ∈ es, q.1 ∉ g.edges.map Prod.fst) →
    (∀ q ∈ g.edges, q ∈ E) →
    (∀ q ∈ es, q ∈ E) →
    hasCycle (es.foldl rpStep g) = false ∧
      (es.foldl rpStep g).nodes = g.nodes ∧
      (∀ q ∈ (es.foldl rpStep g).edges, q ∈ E) := by
  intro es
  induction es with
  | nil => intro g h1 _ _ h4 _; exact ⟨h1, rfl, h4⟩
  | cons p rest ih =>
    intro g h1 h2 h3 h4 h5
    rw [List.foldl_cons]
    have hfresh : p.1 ∉ g.edges.map Prod.fst := h3 p (List.mem_cons_self _ _)
    obtain ⟨hc₂, hsub₂, hkeys₂⟩ := rpStep_fresh g p E hfresh h1 h4
      (h5 p (List.mem_cons_self _ _))
    simp only [List.map_cons, List.nodup_cons] at h2
    have h3₂ : ∀ q ∈ rest, q.1 ∉ (rpStep g p).edges.map Prod.fst := by
      intro q hq hmem
      rcases hkeys₂ q.1 hmem with hin | heq
      · exact h3 q (List.mem_cons_of_mem _ hq) hin
      · exact h2.1 (heq ▸ List.mem_map.mpr ⟨q, hq, rfl⟩)
    obtain ⟨r1, r2, r3⟩ := ih (rpStep g p) hc₂ h2.2 h3₂ hsub₂
      (fun q hq => h5 q (List.mem_cons_of_mem _ hq))
    exact ⟨r1, r2.trans (rpStep_nodes g p), r3⟩

/-- `g.out_degree(n)`: number of edges leaving `n`. -/
def outDegree (g : DiGraph) (n : Cand) : Nat :=
  (g.edges.filter (fun p => decide (p.1.1 = n))).length

/-- `g.in_degree(n)`: number of edges entering `n`. -/
def inDegree (g : DiGraph) (n : Cand) : Nat :=
  (g.edges.filter (fun p => decide (p.1.2 = n))).length

/-- `Election.ranking_by_copeland`: candidates with score
`out_degree - in_degree` on the victory graph, sorted by score descending. -/
def rankingByCopeland (e : Election) : Except PyError (List (Cand × Int)) := do
  let g ← getVictoryGraph e
  .ok (pySort (fun a b => b.2 ≤ a.2)
    (g.nodes.map (fun n => (n, (outDegree g n : Int) - (inDegree g n : Int)))))

/-- `g.in_edges(n)` of the matchup graph. -/
def inEdges (g : DiGraph) (n : Cand) : List (Key × EdgeData) :=
  g.edges.filter (fun p => decide (p.1.2 = n))

/-- Python `max` over a list (meaningful only for nonempty input; `max` of an
empty generator raises `ValueError`, which the caller surfaces). -/
def pyMax : List ℚ → ℚ
  | [] => 0
  | x :: xs => xs.foldl max x

/-- The sort key of `ranking_by_minimax`: the worst (largest) margin among the
edges into `n`. -/
def minimaxKey (g : DiGraph) (n : Cand) : ℚ :=
  pyMax ((inEdges g n).map (fun p => p.2.margin))

/-- `Election.ranking_by_minimax`: `sorted` computes the key of every node
first (decorate), raising `ValueError` on a node with no in-edges, then sorts
ascending by key. -/
def rankingByMinimax (e : Election) : Except PyError (List Cand) := do
  let g ← getMatchupGraph e
  let keyed ← g.nodes.mapM (fun n =>
    if (inEdges g n).isEmpty then (.error .valueError : Except PyError (Cand × ℚ))
    else .ok (n, minimaxKey g n))
  .ok ((pySort (fun a b => a.2 ≤ b.2) keyed).map Prod.fst)

/-- The per-candidate totals of `ranking_by_win_ratio`: summed wins and
losses of the candidate's row of the matchup dictionary (ties ignored). -/
def winLossTotals (matchups : Tally) (candidate : Cand) : Nat × Nat :=
  (matchups.filter (fun p => decide (p.1.1 = candidate))).foldl
    (fun (acc : Nat × Nat) p => (acc.1 + p.2.wins, acc.2 + p.2.losses)) (0, 0)

/-- The ratio `x[0] / ((x[0] + x[1]) or float("inf"))`: the Python `or`
substitutes infinity when the denominator is `0`, making the score `0.0`. -/
def pyRatio (wl : Nat × Nat) : ℚ :=
  if wl.1 + wl.2 = 0 then 0 else (wl.1 : ℚ) / ((wl.1 + wl.2 : Nat) : ℚ)

/-- `Election.ranking_by_win_ratio`: `(candidate, wins / (wins + losses))`
pairs, ties excluded, score `0` when no decided matchups, sorted descending. -/
def rankingByWinRatio (e : Election) : Except PyError (List (Cand × ℚ)) := do
  let matchups ← getMatchups e
  let ratios := e._candidates.map (fun candidate =>
    (candidate, pyRatio (winLossTotals matchups candidate)))
  .ok (pySort (fun a b => b.2 ≤ a.2) ratios)

/-- The per-candidate totals of `ranking_by_win_tie_ratio`: wins plus ties
against losses. -/
def winTieLossTotals (matchups : Tally) (candidate : Cand) : Nat × Nat :=
  (matchups.filter (fun p => decide (p.1.1 = candidate))).foldl
    (fun (acc : Nat × Nat) p => (acc.1 + p.2.wins + p.2.ties, acc.2 + p.2.losses)) (0, 0)

/-- `Election.ranking_by_win_tie_ratio`: like the win ratio but with ties
counted in the numerator (and hence the denominator). -/
def rankingByWinTieRatio (e : Election) : Except PyError (List (Cand × ℚ)) := do
  let matchups ← getMatchups e
  let ratios := e._candidates.map (fun candidate =>
    (candidate, pyRatio (winTieLossTotals matchups candidate)))
  .ok (pySort (fun a b => b.2 ≤ a.2) ratios)

theorem areValidVotes_iff (votes : List RawVote) :
    areValidVotes votes = true ↔
      ∀ v ∈ votes, v.length = 3 ∧
        (v.getD 2 "" = "win" ∨ v.getD 2 "" = "loss" ∨ v.getD 2 "" = "tie") := by
  rw [areValidVotes, List.all_eq_true]
  constructor
  · intro h v hv
    have := h v hv
    simp only [isValidVote, Bool.and_eq_true, Bool.or_eq_true, beq_iff_eq] at this
    exact ⟨this.1, by tauto⟩
  · intro h v hv
    obtain ⟨h1, h2⟩ := h v hv
    simp only [isValidVote, Bool.and_eq_true, Bool.or_eq_true, beq_iff_eq]
    exact ⟨h1, by tauto⟩

theorem matchupGraph_endpoints (e : Election) (mg : DiGraph)
    (hmg : getMatchupGraph e = .ok mg) :
    ∀ p ∈ mg.edges, p.1.1 ∈ mg.nodes ∧ p.1.2 ∈ mg.nodes := by
  obtain ⟨m, hm, hnodes, _⟩ := getMatchupGraph_parts e mg hmg
  obtain ⟨m₂, hm₂, hdget⟩ := getMatchupGraph_dget e mg hmg
  have hmm : m = m₂ := by rw [hm] at hm₂; injection hm₂
  subst hmm
  intro p hp
  have hps : dget mg.edges p.1 = some p.2 :=
    dget_of_mem_nodup _ (keys_nodup_matchupGraph e mg hmg) p.1 p.2 hp
  rw [hdget p.1] at hps
  cases hc : dget m p.1 with
  | none => rw [hc] at hps; exact absurd hps (by simp)
  | some c =>
    have hchar := getMatchups_char e m hm p.1.1 p.1.2
    have hcc : dget m (p.1.1, p.1.2) = some c := by rw [← hc]
    rw [hcc] at hchar
    by_cases hcond : p.1.1 ∈ e._candidates ∧ p.1.2 ∈ e._candidates ∧ p.1.1 ≠ p.1.2
    · rw [hnodes]
      exact ⟨hcond.1, hcond.2.1⟩
    · rw [if_neg hcond] at hchar
      exact absurd hchar (by simp)

theorem mapM_ok_of_pointwise {α β : Type} (f : α → Except PyError β) (g : α → β) :
    ∀ (l : List α), (∀ x ∈ l, f x = .ok (g x)) → l.mapM f = .ok (l.map g) := by
  intro l
  induction l with
  | nil => intro _; rfl
  | cons x l ih =>
    intro h
    rw [List.mapM_cons, h x (List.mem_cons_self _ _)]
    have hrest : l.mapM f = .ok (l.map g) := ih (fun y hy => h y (List.mem_cons_of_mem _ hy))
    rw [show ((Except.ok (g x) : Except PyError β) >>= fun y =>
        l.mapM f >>= fun ys => pure (y :: ys)) =
        (l.mapM f >>= fun ys => pure (g x :: ys)) from rfl, hrest]
    rfl

theorem sum_map_add_nat (a b : Cand → Nat) : ∀ (nodes : List Cand),
    (nodes.map (fun n => a n + b n)).sum = (nodes.map a).sum + (nodes.map b).sum := by
  intro nodes
  induction nodes with
  | nil => rfl
  | cons n ns ih => simp [ih]; omega

theorem sum_ite_notmem (x : Cand) : ∀ (nodes : List Cand), x ∉ nodes →
    (nodes.map (fun n => if x = n then (1 : Nat) else 0)).sum = 0 := by
  intro nodes
  induction nodes with
  | nil => intro _; rfl
  | cons n ns ih =>
    intro h
    simp only [List.mem_cons] at h
    push_neg at h
    simp [h.1, ih h.2]

theorem sum_ite_mem (x : Cand) : ∀ (nodes : List Cand), nodes.Nodup → x ∈ nodes →
    (nodes.map (fun n => if x = n then (1 : Nat) else 0)).sum = 1 := by
  intro nodes
  induction nodes with
  | nil => intro _ h; simp at h
  | cons n ns ih =>
    intro hnd h
    rw [List.nodup_cons] at hnd
    rcases List.mem_cons.mp h with rfl | h₂
    · simp [sum_ite_notmem x ns hnd.1]
    · have hxn : x ≠ n := by
        intro hxn
        subst hxn
        exact hnd.1 h₂
      simp [hxn, ih hnd.2 h₂]

theorem sum_filter_count {γ : Type} (f : γ → Cand) (nodes : List Cand)
    (hnd : nodes.Nodup) : ∀ (edges : List γ), (∀ x ∈ edges, f x ∈ nodes) →
    (nodes.map (fun n => (edges.filter (fun x => decide (f x = n))).length)).sum =
      edges.length := by
  intro edges
  induction edges with
  | nil =>
    intro _
    simp
  | cons x es ih =>
    intro h
    have hx : f x ∈ nodes := h x (List.mem_cons_self _ _)
    have hstep : ∀ n : Cand, ((x :: es).filter (fun y => decide (f y = n))).length =
        (if f x = n then (1 : Nat) else 0) + (es.filter (fun y => decide (f y = n))).length := by
      intro n
      by_cases hfx : f x = n
      · rw [List.filter_cons_of_pos (by simpa using hfx), if_pos hfx]
        simp [Nat.add_comm]
      · rw [List.filter_cons_of_neg (by simpa using hfx), if_neg hfx]
        simp
    have hmapeq : nodes.map (fun n => ((x :: es).filter (fun y => decide (f y = n))).length) =
        nodes.map (fun n => (if f x = n then (1 : Nat) else 0) +
          (es.filter (fun y => decide (f y = n))).length) :=
      List.map_congr_left (fun n _ => hstep n)
    rw [hmapeq, sum_map_add_nat, sum_ite_mem (f x) nodes hnd hx,
      ih (fun y hy => h y (List.mem_cons_of_mem _ hy))]
    simp [Nat.add_comm]

theorem sum_map_intsub (a b : Cand → Nat) : ∀ (nodes : List Cand),
    (nodes.map (fun n => (a n : Int) - (b n : Int))).sum =
      ((nodes.map a).sum : Int) - ((nodes.map b).sum : Int) := by
  intro nodes
  induction nodes with
  | nil => rfl
  | cons n ns ih =>
    simp only [List.map_cons, List.sum_cons, ih]
    push_cast
    ring

/-- C5: for every successfully constructed election and every ordered pair of
distinct candidates `(A, B)`, the tally returned by `get_matchups` satisfies
`wins(A, B) = losses(B, A)` and `ties(A, B) = ties(B, A)`. -/
theorem C5_tally_symmetry (votes : List RawVote) (e : Election) (m : Tally)
    (hmk : mkElection votes = .ok e) (hm : getMatchups e = .ok m) :
    ∀ A B, A ∈ e._candidates → B ∈ e._candidates → A ≠ B →
      ∃ cAB cBA, dget m (A, B) = some cAB ∧ dget m (B, A) = some cBA ∧
        cAB.wins = cBA.losses ∧ cAB.ties = cBA.ties := by
  intro A B hA hB hAB
  have h1 := getMatchups_char e m hm A B
  rw [if_pos ⟨hA, hB, hAB⟩] at h1
  have h2 := getMatchups_char e m hm B A
  rw [if_pos ⟨hB, hA, fun h => hAB h.symm⟩] at h2
  obtain ⟨hw, hl, ht⟩ := bumpFold_sym e._votes A B hAB zeroCounts zeroCounts rfl rfl rfl
  exact ⟨_, _, h1, h2, hw, ht⟩

/-- C6: the matchup graph is structurally symmetric — edge `(A, B)` exists iff
edge `(B, A)` exists — and an edge `(X, Y)` exists iff the recorded
`wins + losses + ties` for `(X, Y)` is nonzero, carrying
`margin = wins / (wins + losses + ties)`. -/
theorem C6_matchup_graph_symmetry (votes : List RawVote) (e : Election) (m : Tally)
    (mg : DiGraph) (hmk : mkElection votes = .ok e) (hm : getMatchups e = .ok m)
    (hmg : getMatchupGraph e = .ok mg) :
    (∀ A B, (dget mg.edges (A, B)).isSome ↔ (dget mg.edges (B, A)).isSome) ∧
      (∀ X Y, (dget mg.edges (X, Y)).isSome ↔
        ∃ c, dget m (X, Y) = some c ∧ c.wins + c.losses + c.ties ≠ 0) ∧
      (∀ X Y d, dget mg.edges (X, Y) = some d →
        ∃ c, dget m (X, Y) = some c ∧ d.wins = c.wins ∧ d.losses = c.losses ∧
          d.ties = c.ties ∧
          d.margin = (c.wins : ℚ) / ((c.wins + c.losses + c.ties : Nat) : ℚ)) := by
  obtain ⟨m₂, hm₂, hdget⟩ := getMatchupGraph_dget e mg hmg
  have hmm : m = m₂ := by rw [hm] at hm₂; injection hm₂
  subst hmm
  have hexists : ∀ X Y, (dget mg.edges (X, Y)).isSome ↔
      ∃ c, dget m (X, Y) = some c ∧ c.wins + c.losses + c.ties ≠ 0 := by
    intro X Y
    rw [hdget (X, Y)]
    cases hc : dget m (X, Y) with
    | none => simp
    | some c =>
      show ((edgeFn c).isSome) ↔ _
      by_cases ht : totalCounts c ≠ 0
      · simp only [edgeFn, if_pos ht, Option.isSome_some]
        exact ⟨fun _ => ⟨c, rfl, ht⟩, fun _ => trivial⟩
      · simp only [edgeFn, if_neg ht]
        push_neg at ht
        constructor
        · intro hfalse
          exact absurd hfalse (by simp)
        · rintro ⟨c₂, hc₂, htot₂⟩
          injection hc₂ with hc₂
          subst hc₂
          exact absurd ht htot₂
  refine ⟨?_, hexists, ?_⟩
  · intro A B
    rw [hexists A B, hexists B A]
    constructor
    · rintro ⟨c, hc, htot⟩
      obtain ⟨c₂, hc₂, htot₂⟩ := matchup_cell_total_sym e m hm A B c hc
      refine ⟨c₂, hc₂, ?_⟩
      simp only [totalCounts] at htot₂
      omega
    · rintro ⟨c, hc, htot⟩
      obtain ⟨c₂, hc₂, htot₂⟩ := matchup_cell_total_sym e m hm B A c hc
      refine ⟨c₂, hc₂, ?_⟩
      simp only [totalCounts] at htot₂
      omega
  · intro X Y d hd
    rw [hdget (X, Y)] at hd
    cases hc : dget m (X, Y) with
    | none => rw [hc] at hd; exact absurd hd (by simp)
    | some c =>
      rw [hc] at hd
      have hd₂ : edgeFn c = some d := hd
      by_cases ht : totalCounts c ≠ 0
      · rw [edgeFn, if_pos ht] at hd₂
        injection hd₂ with hd₂
        subst hd₂
        exact ⟨c, rfl, rfl, rfl, rfl, rfl⟩
      · rw [edgeFn, if_neg ht] at hd₂
        exact absurd hd₂ (by simp)

/-- C3: the victory graph keeps edge `X→Y` iff the matchup-graph margin of
`X→Y` is strictly greater than that of `Y→X`; in particular it never contains
both directions of a pair. -/
theorem C3_victory_graph_strict (votes : List RawVote) (e : Election)
    (mg vg : DiGraph) (hmk : mkElection votes = .ok e)
    (hmg : getMatchupGraph e = .ok mg) (hvg : getVictoryGraph e = .ok vg) :
    vg.nodes = mg.nodes ∧
      (∀ X Y d, dget vg.edges (X, Y) = some d ↔
        (dget mg.edges (X, Y) = some d ∧
          ∃ d₂, dget mg.edges (Y, X) = some d₂ ∧ d₂.margin < d.margin)) ∧
      (∀ A B, ¬ ((dget vg.edges (A, B)).isSome ∧ (dget vg.edges (B, A)).isSome)) := by
  obtain ⟨hnodes, hiff⟩ := getVictoryGraph_dget e vg mg hmg hvg
  refine ⟨hnodes, fun X Y d => hiff (X, Y) d, ?_⟩
  intro A B ⟨hAB, hBA⟩
  obtain ⟨d, hd⟩ := Option.isSome_iff_exists.mp hAB
  obtain ⟨d₂, hd₂⟩ := Option.isSome_iff_exists.mp hBA
  obtain ⟨hmgAB, d₃, hd₃, hlt₁⟩ := (hiff (A, B) d).mp hd
  obtain ⟨hmgBA, d₄, hd₄, hlt₂⟩ := (hiff (B, A) d₂).mp hd₂
  have e₁ : d₃ = d₂ := by
    rw [show dget mg.edges ((A, B).2, (A, B).1) = dget mg.edges (B, A) from rfl] at hd₃
    rw [hmgBA] at hd₃
    injection hd₃ with h
    exact h.symm
  have e₂ : d₄ = d := by
    rw [show dget mg.edges ((B, A).2, (B, A).1) = dget mg.edges (A, B) from rfl] at hd₄
    rw [hmgAB] at hd₄
    injection hd₄ with h
    exact h.symm
  subst e₁
  subst e₂
  exact absurd hlt₂ (not_lt.mpr (le_of_lt hlt₁))

/-- C2 counterexample: a malformed-shape vote and an unrecognized-label vote
both abort construction with the same, undifferentiated `AssertionError` —
there are no two distinct errors. -/
theorem C2_counterexample :
    mkElection [["A", "B"]] = .error .assertionError ∧
      mkElection [["A", "B", "draw"]] = .error .assertionError := by
  constructor <;> with_unfolding_all rfl

/-- C2 (amended): construction fails — with the single error `AssertionError`,
raised by the `assert`, not with two distinct error kinds — exactly when some
vote does not have three components or its third component is not one of
win/loss/tie; failure is detected before any state is built and no partial
state escapes (a successful construction is the only way any state exists). -/
theorem C2_construction_validation (votes : List RawVote) :
    (mkElection votes = .error .assertionError ↔
      ¬ (∀ v ∈ votes, v.length = 3 ∧
        (v.getD 2 "" = "win" ∨ v.getD 2 "" = "loss" ∨ v.getD 2 "" = "tie"))) ∧
      (∀ e, mkElection votes = .ok e →
        e._votes = votes.map normalizeVote ∧
          e._candidates = getAllCandidatesFromVotes e._votes) := by
  constructor
  · rw [← areValidVotes_iff votes]
    by_cases hv : areValidVotes votes
    · rw [mkElection, if_pos hv]
      simp [hv]
    · rw [mkElection, if_neg hv]
      simp only [Bool.not_eq_true]
      constructor
      · intro _
        cases hb : areValidVotes votes with
        | false => rfl
        | true => exact absurd hb hv
      · intro _
        trivial
  · intro e he
    obtain ⟨h1, h2, _⟩ := mkElection_ok_votes votes e he
    exact ⟨h1, h2⟩

/-- C10: a self-vote with a recognized outcome label passes validation, so
construction succeeds; but `get_matchups` then raises `KeyError` (the diagonal
cell was never created), and every ranking method fails the same way. -/
theorem C10_self_vote_keyError (votes : List RawVote)
    (hval : ∀ v ∈ votes, v.length = 3 ∧
      (v.getD 2 "" = "win" ∨ v.getD 2 "" = "loss" ∨ v.getD 2 "" = "tie"))
    (hself : ∃ v ∈ votes, v.getD 0 "" = v.getD 1 "") :
    ∃ e, mkElection votes = .ok e ∧
      getMatchups e = .error .keyError ∧
      getMatchupGraph e = .error .keyError ∧
      getVictoryGraph e = .error .keyError ∧
      rankingByRankedPairs e = .error .keyError ∧
      rankingByCopeland e = .error .keyError ∧
      rankingByMinimax e = .error .keyError ∧
      rankingByWinRatio e = .error .keyError ∧
      rankingByWinTieRatio e = .error .keyError := by
  have hv : areValidVotes votes = true := (areValidVotes_iff votes).mpr hval
  have hmk : mkElection votes =
      .ok { _votes := votes.map normalizeVote,
            _candidates := getAllCandidatesFromVotes (votes.map normalizeVote) } := by
    rw [mkElection, if_pos hv]
  set e : Election :=
    { _votes := votes.map normalizeVote,
      _candidates := getAllCandidatesFromVotes (votes.map normalizeVote) } with he
  have hself₂ : ∃ v ∈ e._votes, v.1 = v.2.1 := by
    obtain ⟨r, hr, hrs⟩ := hself
    exact ⟨normalizeVote r, List.mem_map.mpr ⟨r, hr, rfl⟩, hrs⟩
  have h1 : getMatchups e = .error .keyError := getMatchups_err_self votes e hmk hself₂
  have h2 : getMatchupGraph e = .error .keyError := getMatchupGraph_err e _ h1
  have h3 : getVictoryGraph e = .error .keyError := getVictoryGraph_err e _ h2
  refine ⟨e, hmk, h1, h2, h3, ?_, ?_, ?_, ?_, ?_⟩
  · rw [rankingByRankedPairs, h3, exc_bind_err]
  · rw [rankingByCopeland, h3, exc_bind_err]
  · rw [rankingByMinimax, h2, exc_bind_err]
  · rw [rankingByWinRatio, h1, exc_bind_err]
  · rw [rankingByWinTieRatio, h1, exc_bind_err]

theorem victoryGraph_endpoints (e : Election) (vg : DiGraph)
    (hvg : getVictoryGraph e = .ok vg) :
    ∀ p ∈ vg.edges, p.1.1 ∈ vg.nodes ∧ p.1.2 ∈ vg.nodes := by
  obtain ⟨mg, L, hmg, hL, hnodes, hedges⟩ := getVictoryGraph_parts e vg hvg
  intro p hp
  rw [hedges] at hp
  have hp₂ : p ∈ mg.edges := List.mem_of_mem_filter hp
  rw [hnodes]
  exact matchupGraph_endpoints e mg hmg p hp₂

theorem rankedPairs_main (e : Election) (vg : DiGraph)
    (hvg : getVictoryGraph e = .ok vg) :
    hasCycle (rpFinal vg) = false ∧
      (rpFinal vg).nodes = vg.nodes ∧
      (∀ q ∈ (rpFinal vg).edges, q ∈ vg.edges) ∧
      ∃ l, topoSort? (rpFinal vg) = some l ∧ rankingByRankedPairs e = .ok l := by
  have hsp : (sortEdgesDesc vg.edges).Perm vg.edges := pySort_perm _ _
  have hnd : ((sortEdgesDesc vg.edges).map Prod.fst).Nodup :=
    ((hsp.map Prod.fst).nodup_iff).mpr (keys_nodup_victoryGraph e vg hvg)
  obtain ⟨h1, h2, h3⟩ := rpFold_invariant vg.edges (sortEdgesDesc vg.edges)
    { nodes := vg.nodes, edges := [] } (hasCycle_empty vg.nodes) hnd
    (fun q _ hq => by simp at hq)
    (fun q hq => by simp at hq)
    (fun q hq => hsp.subset hq)
  have hfin1 : hasCycle (rpFinal vg) = false := h1
  have hfin2 : (rpFinal vg).nodes = vg.nodes := h2
  have hfin3 : ∀ q ∈ (rpFinal vg).edges, q ∈ vg.edges := h3
  refine ⟨hfin1, hfin2, hfin3, ?_⟩
  have hsome : ∃ l, topoSort? (rpFinal vg) = some l := by
    cases ht : topoSort? (rpFinal vg) with
    | none => rw [hasCycle, ht] at hfin1; exact absurd hfin1 (by simp)
    | some l => exact ⟨l, rfl⟩
  obtain ⟨l, hl⟩ := hsome
  refine ⟨l, hl, ?_⟩
  rw [rankingByRankedPairs, hvg, exc_bind_ok, hl]

/-- C1: ranked pairs collects the victory edges, sorts them by margin
descending, greedily adds each edge to an initially empty graph over the same
nodes, keeping it exactly when no directed cycle appears; the final graph is an
acyclic subgraph of the victory graph, and the returned ranking is a
topological sort of it, most-preferred (edge source) first. -/
theorem C1_ranked_pairs (votes : List RawVote) (e : Election) (vg : DiGraph)
    (hmk : mkElection votes = .ok e) (hvg : getVictoryGraph e = .ok vg) :
    (sortEdgesDesc vg.edges).Perm vg.edges ∧
      (sortEdgesDesc vg.edges).Pairwise (fun a b => b.2.margin ≤ a.2.margin) ∧
      rpFinal vg = (sortEdgesDesc vg.edges).foldl rpStep { nodes := vg.nodes, edges := [] } ∧
      hasCycle (rpFinal vg) = false ∧
      (rpFinal vg).nodes = vg.nodes ∧
      (∀ q ∈ (rpFinal vg).edges, q ∈ vg.edges) ∧
      ∃ l, rankingByRankedPairs e = .ok l ∧ topoSort? (rpFinal vg) = some l ∧
        l.Perm vg.nodes ∧
        ∀ u v, (u, v) ∈ (rpFinal vg).edges.map Prod.fst →
          l.indexOf u < l.indexOf v := by
  obtain ⟨h1, h2, h3, l, hl, hrank⟩ := rankedPairs_main e vg hvg
  refine ⟨pySort_perm _ _, ?_, rfl, h1, h2, h3, l, hrank, hl, ?_, ?_⟩
  · exact pySort_pairwise _ (fun a b => le_total b.2.margin a.2.margin)
      (fun a b c hab hbc => le_trans hbc hab) vg.edges
  · exact (kahnGo_perm _ _ _ l hl).trans (h2 ▸ List.Perm.refl (rpFinal vg).nodes)
  · intro u v huv
    obtain ⟨q, hq, hqk⟩ := List.mem_map.mp huv
    have hqvg : q ∈ vg.edges := h3 q hq
    have hends := victoryGraph_endpoints e vg hvg q hqvg
    rw [hqk] at hends
    have hu : u ∈ (rpFinal vg).nodes := by
      rw [h2]
      exact hends.1
    have hv : v ∈ (rpFinal vg).nodes := by
      rw [h2]
      exact hends.2
    exact kahnGo_before _ _ _ l hl u v (List.mem_map.mpr ⟨q, hq, hqk⟩) hu hv

/-- C7: the Copeland scores returned by `ranking_by_copeland` (out-degree minus
in-degree on the victory graph) sum to zero over all candidates. -/
theorem C7_copeland_sum_zero (votes : List RawVote) (e : Election) (vg : DiGraph)
    (r : List (Cand × Int)) (hmk : mkElection votes = .ok e)
    (hvg : getVictoryGraph e = .ok vg) (hr : rankingByCopeland e = .ok r) :
    (r.map Prod.snd).sum = 0 := by
  rw [rankingByCopeland, hvg, exc_bind_ok] at hr
  injection hr with hr
  obtain ⟨mg, L, hmg, _, hnodes, _⟩ := getVictoryGraph_parts e vg hvg
  obtain ⟨m, hm, hnodes₂, _⟩ := getMatchupGraph_parts e mg hmg
  have hnd : vg.nodes.Nodup := by
    rw [hnodes, hnodes₂]
    exact (mkElection_ok_cands votes e hmk).2.1
  have hends := victoryGraph_endpoints e vg hvg
  have hperm : r.Perm (vg.nodes.map
      (fun n => (n, (outDegree vg n : Int) - (inDegree vg n : Int)))) := by
    rw [← hr]
    exact pySort_perm _ _
  have hsum : (r.map Prod.snd).sum = ((vg.nodes.map
      (fun n => (n, (outDegree vg n : Int) - (inDegree vg n : Int)))).map Prod.snd).sum :=
    (hperm.map Prod.snd).sum_eq
  rw [hsum, List.map_map]
  have hmapeq : (vg.nodes.map (Prod.snd ∘
      (fun n => (n, (outDegree vg n : Int) - (inDegree vg n : Int))))) =
      vg.nodes.map (fun n => (outDegree vg n : Int) - (inDegree vg n : Int)) := rfl
  rw [hmapeq, sum_map_intsub (outDegree vg) (inDegree vg) vg.nodes]
  have hout : (vg.nodes.map
      (fun n => (vg.edges.filter (fun p => decide (p.1.1 = n))).length)).sum =
      vg.edges.length :=
    sum_filter_count (fun p => p.1.1) vg.nodes hnd vg.edges (fun p hp => (hends p hp).1)
  have hin : (vg.nodes.map
      (fun n => (vg.edges.filter (fun p => decide (p.1.2 = n))).length)).sum =
      vg.edges.length :=
    sum_filter_count (fun p => p.1.2) vg.nodes hnd vg.edges (fun p hp => (hends p hp).2)
  show ((vg.nodes.map
      (fun n => (vg.edges.filter (fun p => decide (p.1.1 = n))).length)).sum : Int) -
    ((vg.nodes.map
      (fun n => (vg.edges.filter (fun p => decide (p.1.2 = n))).length)).sum : Int) = 0
  rw [hout, hin]
  ring

/-- C8: `ranking_by_win_ratio` scores each candidate as
`wins / (wins + losses)` over the candidate's row (ties excluded), defines the
score as `0` when the denominator is zero, and returns the pairs sorted by
score descending. -/
theorem C8_win_ratio (votes : List RawVote) (e : Election) (m : Tally)
    (r : List (Cand × ℚ)) (hmk : mkElection votes = .ok e)
    (hm : getMatchups e = .ok m) (hr : rankingByWinRatio e = .ok r) :
    r.Perm (e._candidates.map (fun c => (c, pyRatio (winLossTotals m c)))) ∧
      r.Pairwise (fun a b => b.2 ≤ a.2) ∧
      (∀ p ∈ r, p.2 = if (winLossTotals m p.1).1 + (winLossTotals m p.1).2 = 0 then 0
        else ((winLossTotals m p.1).1 : ℚ) /
          (((winLossTotals m p.1).1 + (winLossTotals m p.1).2 : Nat) : ℚ)) ∧
      (∀ c ∈ e._candidates, (winLossTotals m c).1 + (winLossTotals m c).2 = 0 →
        (c, (0 : ℚ)) ∈ r) := by
  rw [rankingByWinRatio, hm, exc_bind_ok] at hr
  injection hr with hr
  have hperm : r.Perm (e._candidates.map (fun c => (c, pyRatio (winLossTotals m c)))) := by
    rw [← hr]
    exact pySort_perm _ _
  refine ⟨hperm, ?_, ?_, ?_⟩
  · rw [← hr]
    exact pySort_pairwise (fun (a b : Cand × ℚ) => b.2 ≤ a.2)
      (fun a b => le_total b.2 a.2)
      (fun a b c hab hbc => le_trans hbc hab) _
  · intro p hp
    have hp₂ := hperm.subset hp
    obtain ⟨c, _, hceq⟩ := List.mem_map.mp hp₂
    rw [← hceq]
    rfl
  · intro c hc hz
    have hmem : (c, pyRatio (winLossTotals m c)) ∈
        e._candidates.map (fun c => (c, pyRatio (winLossTotals m c))) :=
      List.mem_map.mpr ⟨c, hc, rfl⟩
    rw [show pyRatio (winLossTotals m c) = 0 by rw [pyRatio, if_pos hz]] at hmem
    exact hperm.mem_iff.mpr hmem

/-- C9: when every candidate has at least one incoming matchup edge,
`ranking_by_minimax` succeeds and returns the candidates sorted ascending by
the maximum margin among the edges into each candidate. -/
theorem C9_minimax_sorted (votes : List RawVote) (e : Election) (mg : DiGraph)
    (hmk : mkElection votes = .ok e) (hmg : getMatchupGraph e = .ok mg)
    (hin : ∀ n ∈ mg.nodes, inEdges mg n ≠ []) :
    ∃ r, rankingByMinimax e = .ok r ∧ r.Perm mg.nodes ∧
      r.Pairwise (fun a b => minimaxKey mg a ≤ minimaxKey mg b) := by
  have hmapM : mg.nodes.mapM (fun n =>
      if (inEdges mg n).isEmpty then (.error .valueError : Except PyError (Cand × ℚ))
      else .ok (n, minimaxKey mg n)) =
      .ok (mg.nodes.map (fun n => (n, minimaxKey mg n))) := by
    apply mapM_ok_of_pointwise
    intro n hn
    rw [if_neg]
    simp only [List.isEmpty_iff]
    exact hin n hn
  refine ⟨(pySort (fun a b => a.2 ≤ b.2)
    (mg.nodes.map (fun n => (n, minimaxKey mg n)))).map Prod.fst, ?_, ?_, ?_⟩
  · rw [rankingByMinimax, hmg, exc_bind_ok, hmapM, exc_bind_ok]
  · have h1 : ((pySort (fun a b => a.2 ≤ b.2)
        (mg.nodes.map (fun n => (n, minimaxKey mg n)))).map Prod.fst).Perm
        ((mg.nodes.map (fun n => (n, minimaxKey mg n))).map Prod.fst) :=
      (pySort_perm _ _).map Prod.fst
    refine h1.trans ?_
    rw [List.map_map]
    rw [show (Prod.fst ∘ fun n => (n, minimaxKey mg n)) = id from rfl, List.map_id]
  · rw [List.pairwise_map]
    have hpw : (pySort (fun a b => a.2 ≤ b.2)
        (mg.nodes.map (fun n => (n, minimaxKey mg n)))).Pairwise
        (fun (a b : Cand × ℚ) => a.2 ≤ b.2) :=
      pySort_pairwise (fun (a b : Cand × ℚ) => a.2 ≤ b.2)
        (fun a b => le_total a.2 b.2)
        (fun a b c hab hbc => le_trans hab hbc) _
    refine hpw.imp_of_mem ?_
    intro p q hp hq hle
    have hp₂ := (pySort_perm (fun (a b : Cand × ℚ) => a.2 ≤ b.2) _).subset hp
    have hq₂ := (pySort_perm (fun (a b : Cand × ℚ) => a.2 ≤ b.2) _).subset hq
    obtain ⟨n₁, _, he₁⟩ := List.mem_map.mp hp₂
    obtain ⟨n₂, _, he₂⟩ := List.mem_map.mp hq₂
    rw [← he₁, ← he₂]
    rw [← he₁, ← he₂] at hle
    exact hle

theorem minimax_in_edges (votes : List RawVote) (e : Election) (mg : DiGraph)
    (hmk : mkElection votes = .ok e) (hns : ∀ v ∈ e._votes, v.1 ≠ v.2.1)
    (hmg : getMatchupGraph e = .ok mg) :
    ∀ n ∈ mg.nodes, inEdges mg n ≠ [] := by
  obtain ⟨m, hm, hnodes, _⟩ := getMatchupGraph_parts e mg hmg
  obtain ⟨m₂, hm₂, hdget⟩ := getMatchupGraph_dget e mg hmg
  have hmm : m = m₂ := by rw [hm] at hm₂; injection hm₂
  subst hmm
  obtain ⟨hmem, hnd, hcover⟩ := mkElection_ok_cands votes e hmk
  have hlab := mkElection_ok_labels votes e hmk
  intro n hn
  rw [hnodes] at hn
  obtain ⟨v, hv, hvn⟩ := hcover n hn
  have hne := hns v hv
  have ⟨hv1, hv2⟩ := hmem v hv
  -- the in-edge of n is keyed (v.2.1, v.1) when v.1 = n, and (v.1, v.2.1) when v.2.1 = n
  have key_edge : ∀ k : Key, k.2 = n → ∀ c, dget m k = some c → totalCounts c ≠ 0 →
      inEdges mg n ≠ [] := by
    intro k hk c hc htot
    have hedge : dget mg.edges k = some (mkEdgeData c) := by
      rw [hdget k, hc]
      show edgeFn c = _
      rw [edgeFn, if_pos htot]
    have hmemedge : (k, mkEdgeData c) ∈ mg.edges := mem_of_dget_eq_some _ _ _ hedge
    have : (k, mkEdgeData c) ∈ inEdges mg n := by
      rw [inEdges]
      refine List.mem_filter.mpr ⟨hmemedge, ?_⟩
      simp [hk]
    exact List.ne_nil_of_mem this
  have hdirect : dget m (v.1, v.2.1) =
      some (bumpFold e._votes (v.1, v.2.1) zeroCounts) := by
    rw [getMatchups_char e m hm v.1 v.2.1, if_pos ⟨hv1, hv2, hne⟩]
  have htot₁ : totalCounts (bumpFold e._votes (v.1, v.2.1) zeroCounts) ≠ 0 := by
    have := bumpFold_total_pos e._votes v hv hne (hlab v hv) zeroCounts
    omega
  rcases hvn with hvn | hvn
  · -- v.1 = n : mirror cell (v.2.1, v.1) carries the in-edge of n
    obtain ⟨c₂, hc₂, htot₂⟩ := matchup_cell_total_sym e m hm v.1 v.2.1 _ hdirect
    exact key_edge (v.2.1, v.1) (by simpa using hvn) c₂ hc₂ (by omega)
  · -- v.2.1 = n : the cell (v.1, v.2.1) itself is an in-edge of n
    exact key_edge (v.1, v.2.1) (by simpa using hvn) _ hdirect htot₁

/-- C4 counterexample: the self-vote `("A", "A", "win")` passes validation, so
the vote list is validated and construction succeeds, yet the query method
`get_matchups` raises `KeyError` — so not every query method is infallible on
validated vote lists. -/
theorem C4_counterexample :
    mkElection [["A", "A", "win"]] =
      .ok { _votes := [("A", "A", "win")], _candidates := ["A"] } ∧
      getMatchups { _votes := [("A", "A", "win")], _candidates := ["A"] } =
        .error .keyError := by
  constructor <;> with_unfolding_all rfl

/-- C4 (amended): after successful construction from votes with no self-votes,
every query method — matchup tally, matchup graph, victory graph, and all five
ranking methods — is infallible; in particular the Minimax no-in-edges case
cannot arise, because every candidate appears in some matchup and the matchup
graph carries both directions of it. -/
theorem C4_queries_infallible (votes : List RawVote) (e : Election)
    (hmk : mkElection votes = .ok e) (hns : ∀ v ∈ e._votes, v.1 ≠ v.2.1) :
    (∃ m, getMatchups e = .ok m) ∧
      (∃ mg, getMatchupGraph e = .ok mg) ∧
      (∃ vg, getVictoryGraph e = .ok vg) ∧
      (∃ l, rankingByRankedPairs e = .ok l) ∧
      (∃ r, rankingByCopeland e = .ok r) ∧
      (∃ r, rankingByMinimax e = .ok r) ∧
      (∃ r, rankingByWinRatio e = .ok r) ∧
      (∃ r, rankingByWinTieRatio e = .ok r) := by
  obtain ⟨m, hm⟩ := getMatchups_ok votes e hmk hns
  obtain ⟨mg, hmg⟩ := getMatchupGraph_ok e m hm
  obtain ⟨vg, hvg⟩ := getVictoryGraph_ok e mg hmg
  obtain ⟨_, _, _, l, _, hrp⟩ := rankedPairs_main e vg hvg
  have hin := minimax_in_edges votes e mg hmk hns hmg
  have hmapM : mg.nodes.mapM (fun n =>
      if (inEdges mg n).isEmpty then (.error .valueError : Except PyError (Cand × ℚ))
      else .ok (n, minimaxKey mg n)) =
      .ok (mg.nodes.map (fun n => (n, minimaxKey mg n))) := by
    apply mapM_ok_of_pointwise
    intro n hn
    rw [if_neg]
    simp only [List.isEmpty_iff]
    exact hin n hn
  refine ⟨⟨m, hm⟩, ⟨mg, hmg⟩, ⟨vg, hvg⟩, ⟨l, hrp⟩, ?_, ?_, ?_, ?_⟩
  · rw [rankingByCopeland, hvg, exc_bind_ok]
    exact ⟨_, rfl⟩
  · rw [rankingByMinimax, hmg, exc_bind_ok, hmapM, exc_bind_ok]
    exact ⟨_, rfl⟩
  · rw [rankingByWinRatio, hm, exc_bind_ok]
    exact ⟨_, rfl⟩
  · rw [rankingByWinTieRatio, hm, exc_bind_ok]
    exact ⟨_, rfl⟩

/-- A one-vote election used to exercise the theorems on concrete data. -/
def exVotes : List RawVote := [["A", "B", "win"]]

/-- The election constructed from `exVotes`. -/
def exElection : Election := { _votes := [("A", "B", "win")], _candidates := ["A", "B"] }

/-- The matchup tally of `exElection`. -/
def exTally : Tally :=
  [(("A", "B"), { wins := 1, losses := 0, ties := 0 }),
   (("B", "A"), { wins := 0, losses := 1, ties := 0 })]

/-- The matchup graph of `exElection`. -/
def exMatchupGraph : DiGraph :=
  { nodes := ["A", "B"],
    edges := [(("A", "B"), { wins := 1, losses := 0, ties := 0, margin := 1 }),
              (("B", "A"), { wins := 0, losses := 1, ties := 0, margin := 0 })] }

/-- The victory graph of `exElection`. -/
def exVictoryGraph : DiGraph :=
  { nodes := ["A", "B"],
    edges := [(("A", "B"), { wins := 1, losses := 0, ties := 0, margin := 1 })] }

theorem C1_ranked_pairs_witness :
    (sortEdgesDesc exVictoryGraph.edges).Perm exVictoryGraph.edges ∧
      (sortEdgesDesc exVictoryGraph.edges).Pairwise (fun a b => b.2.margin ≤ a.2.margin) ∧
      rpFinal exVictoryGraph =
        (sortEdgesDesc exVictoryGraph.edges).foldl rpStep
          { nodes := exVictoryGraph.nodes, edges := [] } ∧
      hasCycle (rpFinal exVictoryGraph) = false ∧
      (rpFinal exVictoryGraph).nodes = exVictoryGraph.nodes ∧
      (∀ q ∈ (rpFinal exVictoryGraph).edges, q ∈ exVictoryGraph.edges) ∧
      ∃ l, rankingByRankedPairs exElection = .ok l ∧
        topoSort? (rpFinal exVictoryGraph) = some l ∧
        l.Perm exVictoryGraph.nodes ∧
        ∀ u v, (u, v) ∈ (rpFinal exVictoryGraph).edges.map Prod.fst →
          l.indexOf u < l.indexOf v :=
  C1_ranked_pairs exVotes exElection exVictoryGraph (by with_unfolding_all rfl)
    (by with_unfolding_all rfl)

theorem C2_construction_validation_witness :
    (mkElection [["A", "B"]] = .error .assertionError ↔
      ¬ (∀ v ∈ [(["A", "B"] : RawVote)], v.length = 3 ∧
        (v.getD 2 "" = "win" ∨ v.getD 2 "" = "loss" ∨ v.getD 2 "" = "tie"))) ∧
      (∀ e, mkElection [["A", "B"]] = .ok e →
        e._votes = [(["A", "B"] : RawVote)].map normalizeVote ∧
          e._candidates = getAllCandidatesFromVotes e._votes) :=
  C2_construction_validation [["A", "B"]]

theorem C3_victory_graph_strict_witness :
    exVictoryGraph.nodes = exMatchupGraph.nodes ∧
      (∀ X Y d, dget exVictoryGraph.edges (X, Y) = some d ↔
        (dget exMatchupGraph.edges (X, Y) = some d ∧
          ∃ d₂, dget exMatchupGraph.edges (Y, X) = some d₂ ∧ d₂.margin < d.margin)) ∧
      (∀ A B, ¬ ((dget exVictoryGraph.edges (A, B)).isSome ∧
        (dget exVictoryGraph.edges (B, A)).isSome)) :=
  C3_victory_graph_strict exVotes exElection exMatchupGraph exVictoryGraph
    (by with_unfolding_all rfl) (by with_unfolding_all rfl) (by with_unfolding_all rfl)

theorem C4_queries_infallible_witness :
    (∃ m, getMatchups exElection = .ok m) ∧
      (∃ mg, getMatchupGraph exElection = .ok mg) ∧
      (∃ vg, getVictoryGraph exElection = .ok vg) ∧
      (∃ l, rankingByRankedPairs exElection = .ok l) ∧
      (∃ r, rankingByCopeland exElection = .ok r) ∧
      (∃ r, rankingByMinimax exElection = .ok r) ∧
      (∃ r, rankingByWinRatio exElection = .ok r) ∧
      (∃ r, rankingByWinTieRatio exElection = .ok r) :=
  C4_queries_infallible exVotes exElection (by with_unfolding_all rfl)
    (by with_unfolding_all decide)

theorem C5_tally_symmetry_witness :
    ∃ cAB cBA, dget exTally ("A", "B") = some cAB ∧ dget exTally ("B", "A") = some cBA ∧
      cAB.wins = cBA.losses ∧ cAB.ties = cBA.ties :=
  C5_tally_symmetry exVotes exElection exTally (by with_unfolding_all rfl)
    (by with_unfolding_all rfl) "A" "B" (by with_unfolding_all decide)
    (by with_unfolding_all decide) (by decide)

theorem C6_matchup_graph_symmetry_witness :
    (∀ A B, (dget exMatchupGraph.edges (A, B)).isSome ↔
      (dget exMatchupGraph.edges (B, A)).isSome) ∧
      (∀ X Y, (dget exMatchupGraph.edges (X, Y)).isSome ↔
        ∃ c, dget exTally (X, Y) = some c ∧ c.wins + c.losses + c.ties ≠ 0) ∧
      (∀ X Y d, dget exMatchupGraph.edges (X, Y) = some d →
        ∃ c, dget exTally (X, Y) = some c ∧ d.wins = c.wins ∧ d.losses = c.losses ∧
          d.ties = c.ties ∧
          d.margin = (c.wins : ℚ) / ((c.wins + c.losses + c.ties : Nat) : ℚ)) :=
  C6_matchup_graph_symmetry exVotes exElection exTally exMatchupGraph
    (by with_unfolding_all rfl) (by with_unfolding_all rfl) (by with_unfolding_all rfl)

theorem C7_copeland_sum_zero_witness :
    (([("A", (1 : Int)), ("B", (-1 : Int))].map Prod.snd).sum = 0) :=
  C7_copeland_sum_zero exVotes exElection exVictoryGraph [("A", 1), ("B", -1)]
    (by with_unfolding_all rfl) (by with_unfolding_all rfl) (by with_unfolding_all rfl)

theorem C8_win_ratio_witness :
    ([("A", (1 : ℚ)), ("B", 0)]).Perm
        (exElection._candidates.map (fun c => (c, pyRatio (winLossTotals exTally c)))) ∧
      ([("A", (1 : ℚ)), ("B", 0)]).Pairwise (fun a b => b.2 ≤ a.2) ∧
      (∀ p ∈ [("A", (1 : ℚ)), ("B", 0)],
        p.2 = if (winLossTotals exTally p.1).1 + (winLossTotals exTally p.1).2 = 0 then 0
          else ((winLossTotals exTally p.1).1 : ℚ) /
            (((winLossTotals exTally p.1).1 + (winLossTotals exTally p.1).2 : Nat) : ℚ)) ∧
      (∀ c ∈ exElection._candidates,
        (winLossTotals exTally c).1 + (winLossTotals exTally c).2 = 0 →
          (c, (0 : ℚ)) ∈ [("A", (1 : ℚ)), ("B", 0)]) :=
  C8_win_ratio exVotes exElection exTally [("A", 1), ("B", 0)]
    (by with_unfolding_all rfl) (by with_unfolding_all rfl) (by with_unfolding_all rfl)

theorem C9_minimax_sorted_witness :
    ∃ r, rankingByMinimax exElection = .ok r ∧ r.Perm exMatchupGraph.nodes ∧
      r.Pairwise (fun a b => minimaxKey exMatchupGraph a ≤ minimaxKey exMatchupGraph b) :=
  C9_minimax_sorted exVotes exElection exMatchupGraph (by with_unfolding_all rfl)
    (by with_unfolding_all rfl) (by with_unfolding_all decide)

theorem C10_self_vote_keyError_witness :
    ∃ e, mkElection [["A", "A", "win"]] = .ok e ∧
      getMatchups e = .error .keyError ∧
      getMatchupGraph e = .error .keyError ∧
      getVictoryGraph e = .error .keyError ∧
      rankingByRankedPairs e = .error .keyError ∧
      rankingByCopeland e = .error .keyError ∧
      rankingByMinimax e = .error .keyError ∧
      rankingByWinRatio e = .error .keyError ∧
      rankingByWinTieRatio e = .error .keyError :=
  C10_self_vote_keyError [["A", "A", "win"]] (by decide) (by decide)
